import Mathlib

/-!
Verification development for the PageLogic front-end loader
(`src/code/loader.ts`, class `CodeLoader`).

The loader reads page source files beneath a fixed document root, resolves
`:include` / `:import` / `:define` / `:slot` directives, and expands
user-defined macros, producing a consolidated syntax tree.

Shallow embedding conventions used throughout this file:

* JavaScript strings are modelled as `List Char` (`Str`); `String.startsWith`
  becomes `List.isPrefixOf`, `substring(n)` becomes `List.drop n`.
* The external collaborators (file system reads and the `CodeParser`) are an
  explicit environment `LoaderEnv` of oracle functions, as §1 of the design
  notes treats them as out of scope.
* The mutable `CodeLoaderSource` accumulator (`files`, `errors`, `macros`)
  becomes an explicitly threaded `LoaderState`.
* Trees are immutable values.  The TypeScript code mutates trees in place and
  tracks nodes by object identity; here every rewrite is a pure function and
  positions are tracked by child-index paths.  `JSON.parse(JSON.stringify(x))`
  (a deep clone producing a value structurally equal to `x`) is the identity
  on values.
* Source-location metadata (`start`/`end`/`loc`) is carried verbatim by the
  loader and never inspected by it; it is omitted from the model, and
  diagnostics keep only their severity and message.
-/

set_option maxHeartbeats 1000000

namespace PageLogic

/-- JavaScript strings, modelled as lists of characters. -/
abbrev Str := List Char

/-- Embed a Lean string literal into the model's string type. -/
def str (s : String) : Str := s.toList

/-! ## Path functions (Node.js `path`, POSIX flavour)

`loader.ts` resolves file names with `path.join`, `path.normalize`,
`path.relative` and `path.dirname`.  These are external library functions;
they are modelled here by the standard POSIX algorithms: split on `/`,
drop empty and `.` segments, resolve `..` against preceding segments
(discarding `..` at the top of an absolute path). -/

/-- Split a string on a separator character.  `splitOnChar '/' "a//b"`
yields `["a", "", "b"]`. -/
def splitOnChar (sep : Char) : Str → List Str
  | [] => [[]]
  | c :: cs =>
    let r := splitOnChar sep cs
    if c = sep then [] :: r
    else
      match r with
      | [] => [[c]]
      | s :: rest => (c :: s) :: rest

/-- Join segments with a separator character. -/
def joinSegs (sep : Char) : List Str → Str
  | [] => []
  | [s] => s
  | s :: rest => s ++ sep :: joinSegs sep rest

/-- Resolve `.` and `..` segments.  `abs` tells whether the path is absolute,
in which case `..` at the top is discarded (POSIX `path.normalize`). -/
def normSegs (abs : Bool) : List Str → List Str → List Str
  | acc, [] => acc.reverse
  | acc, s :: rest =>
    if s = [] ∨ s = ['.'] then normSegs abs acc rest
    else if s = ['.', '.'] then
      match acc with
      | [] => if abs then normSegs abs [] rest else normSegs abs [['.', '.']] rest
      | t :: acc' =>
        if t = ['.', '.'] then normSegs abs (s :: acc) rest
        else normSegs abs acc' rest
    else normSegs abs (s :: acc) rest

/-- Node.js `path.normalize` (POSIX), without trailing-slash preservation,
which the loader never depends on. -/
def pathNormalize (p : Str) : Str :=
  if p = [] then ['.']
  else
    let abs := p.head? = some '/'
    let out := normSegs abs [] (splitOnChar '/' p)
    let body := joinSegs '/' out
    if abs then '/' :: body
    else if body = [] then ['.'] else body

/-- Node.js `path.join` (POSIX): drop empty arguments, join with `/`,
normalize. -/
def pathJoin (parts : List Str) : Str :=
  let ne := parts.filter (· ≠ [])
  if ne = [] then ['.'] else pathNormalize (joinSegs '/' ne)

/-- Segments of a normalized path (empty and `.` segments removed). -/
def pathSegs (p : Str) : List Str :=
  (splitOnChar '/' p).filter (fun s => s ≠ [] ∧ s ≠ ['.'])

/-- Drop the longest common prefix of two segment lists. -/
def dropCommon : List Str → List Str → List Str × List Str
  | a :: as', b :: bs' =>
    if a = b then dropCommon as' bs' else (a :: as', b :: bs')
  | as', bs' => (as', bs')

/-- Node.js `path.relative` (POSIX): the path from `fr` to `to`, as used for
the `forbidden pathname` diagnostic text. -/
def pathRelative (fr dst : Str) : Str :=
  let (fa, ta) := dropCommon (pathSegs (pathNormalize fr)) (pathSegs (pathNormalize dst))
  joinSegs '/' (fa.map (fun _ => ['.', '.']) ++ ta)

/-- Node.js `path.dirname` (POSIX). -/
def pathDirname (p : Str) : Str :=
  let segs := splitOnChar '/' p
  match segs with
  | [] => ['.']
  | [_] => ['.']
  | _ =>
    let init := segs.dropLast
    if init.all (· = []) then
      if p.head? = some '/' then ['/'] else ['.']
    else joinSegs '/' init

/-! ## The syntax tree

`walker.ts` exposes acorn-JSX trees.  An element node has a tag name, an
ordered attribute list, a self-closing flag, an optional closing-tag name and
an ordered child list; other children are literal text runs and opaque
expression fragments (`JSXExpressionContainer`, carried verbatim, abstracted
to a numeric token). -/

/-- An attribute value: a string literal, or an opaque expression island. -/
inductive AttrVal where
  | lit (s : Str)
  | exprVal (tok : Nat)
  deriving DecidableEq, Repr

/-- A JSX attribute (`JSXAttribute`): name and value. -/
structure JSXAttr where
  name : Str
  value : AttrVal
  deriving DecidableEq, Repr

/-- A node of the syntax tree: element, text run, or opaque expression
fragment. An element carries its opening tag name, attributes, self-closing
flag, closing tag name (when present) and children. -/
inductive JSXNode where
  | elem (name : Str) (attrs : List JSXAttr) (selfClosing : Bool)
      (closingName : Option Str) (children : List JSXNode)
  | text (value : Str)
  | exprFragment (tok : Nat)
  deriving Repr

/-- A parsed program: the list of top-level statements, each abstracted to
the node it carries (the shape check in `parse` accepts only a leading
element). -/
abbrev Program := List JSXNode

/-- Children of a node (`[]` for non-elements). -/
def JSXNode.children : JSXNode → List JSXNode
  | .elem _ _ _ _ cs => cs
  | _ => []

/-- Attribute list of a node (`[]` for non-elements). -/
def JSXNode.attrs : JSXNode → List JSXAttr
  | .elem _ as' _ _ _ => as'
  | _ => []

/-- Tag name of a node (`[]` for non-elements). -/
def JSXNode.tagName : JSXNode → Str
  | .elem n _ _ _ _ => n
  | _ => []

/-- Whether a node is an element. -/
def JSXNode.isElem : JSXNode → Bool
  | .elem _ _ _ _ _ => true
  | _ => false

/-! ## Attribute helpers (`utils.ts`)

`utils.ts` is not part of the sources provided; the four helpers are
modelled from the spec (§3: an attribute has a name and a literal or opaque
expression value): `getJSXAttribute` returns the literal string value of the
first attribute with the given name, `getJSXAttributeKeys` the attribute
names in order, `getJSXAttributeNode` the first attribute node with the
name, `removeJSXAttribute` removes it. -/

/-- Modelled from the spec: `getJSXAttribute` — the literal string value of
the named attribute of an opening element, if any. -/
def getJSXAttribute (attrs : List JSXAttr) (key : Str) : Option Str :=
  match attrs.find? (fun a => a.name = key) with
  | some a =>
    match a.value with
    | .lit s => some s
    | .exprVal _ => none
  | none => none

/-- Modelled from the spec: `getJSXAttributeKeys` — attribute names in
order. -/
def getJSXAttributeKeys (attrs : List JSXAttr) : List Str :=
  attrs.map (·.name)

/-- Modelled from the spec: `getJSXAttributeNode` — the first attribute with
the given name. -/
def getJSXAttributeNode (attrs : List JSXAttr) (key : Str) : Option JSXAttr :=
  attrs.find? (fun a => a.name = key)

/-- Modelled from the spec: `removeJSXAttribute` — remove the named
attribute. -/
def removeJSXAttribute (attrs : List JSXAttr) (key : Str) : List JSXAttr :=
  attrs.eraseP (fun a => a.name = key)

/-- Overwrite the value of the first attribute named `key` (the
`dstAttr.value = srcAttr.value` assignment in `populateMacro`). -/
def setAttrValue (attrs : List JSXAttr) (key : Str) (v : AttrVal) : List JSXAttr :=
  match attrs with
  | [] => []
  | a :: rest =>
    if a.name = key then { a with value := v } :: rest
    else a :: setAttrValue rest key v

/-! ## Diagnostics, macros, loader state -/

/-- `CodeErrorType`. -/
inductive Sev where
  | error
  | warning
  deriving DecidableEq, Repr

/-- A `CodeError`: severity and message (source location omitted, see the
module comment). -/
structure Diag where
  type : Sev
  msg : Str
  deriving DecidableEq, Repr

/-- A `MacroDefinition`: user-chosen name, stored body, base tag, and the
optional parent definition (inheritance). -/
inductive MacroDefinition where
  | mk (name : Str) (node : JSXNode) (base : Str)
      (fromDef : Option MacroDefinition)

/-- Name of a macro definition. -/
def MacroDefinition.name : MacroDefinition → Str
  | .mk n _ _ _ => n

/-- Stored body of a macro definition. -/
def MacroDefinition.node : MacroDefinition → JSXNode
  | .mk _ b _ _ => b

/-- Base tag of a macro definition. -/
def MacroDefinition.base : MacroDefinition → Str
  | .mk _ _ b _ => b

/-- The threaded part of `CodeLoaderSource`: visited files, diagnostics and
the macro registry, each append-only/overwriting exactly as in the source. -/
structure LoaderState where
  files : List Str
  errors : List Diag
  macros : List (Str × MacroDefinition)

/-- The empty accumulator created at the top of `load`. -/
def initState : LoaderState := { files := [], errors := [], macros := [] }

/-- `addError` (`ret.errors.push(new CodeError(type, msg, from))`). -/
def addError (st : LoaderState) (type : Sev) (msg : Str) : LoaderState :=
  { st with errors := st.errors ++ [{ type := type, msg := msg }] }

/-- Registry lookup `source.macros[name]`. -/
def lookupMacro (st : LoaderState) (name : Str) : Option MacroDefinition :=
  (st.macros.find? (fun p => p.1 = name)).map (·.2)

/-- Registry assignment `source.macros[name] = def` (overwrites any earlier
definition of the same name). -/
def setMacro (st : LoaderState) (name : Str) (d : MacroDefinition) : LoaderState :=
  { st with macros := (name, d) :: st.macros }

/-- The environment of external collaborators: document root, file reads
(`fs.promises.readFile`, `none` = I/O failure) and the external
`CodeParser.parse` bridge (`Except` = parser exception message). -/
structure LoaderEnv where
  root : Str
  readFile : Str → Option Str
  parseFile : Str → Str → Except Str Program

/-- `MAX_NESTING`. -/
def MAX_NESTING : Nat := 100

/-- The reserved directive prefix `:` as a character. -/
def TAGS_PREFIX : Char := ':'

/-- A tag is a directive tag when it starts with `:`. -/
def isDirectiveName (n : Str) : Bool := n.head? = some TAGS_PREFIX

/-- JavaScript `\s` on the characters the loader meets (`/^\s*$/` tests and
`String.trim`). -/
def isJsSpace (c : Char) : Bool :=
  c = ' ' ∨ c = '\t' ∨ c = '\n' ∨ c = '\r' ∨ c = '\x0b' ∨ c = '\x0c'

/-- Whether a string is blank (`/^\s*$/`, and `!s.trim()`). -/
def isBlank (s : Str) : Bool := s.all isJsSpace

/-! ## Tree positions

The TypeScript code rewrites trees in place, referring to nodes by object
identity (`indexOf` followed by `splice`).  In the value world a node is
referred to by its path of child indices from the root of the tree being
rewritten; a batch of positional edits keyed by paths in the *original* tree
reproduces the effect of the identity-based splices (see `applyOpsN`). -/

/-- A position in a tree: the child index at each level. -/
abbrev TreePath := List Nat

/-- Look up an association list by key. -/
def assocFind {α : Type} (m : List (Str × α)) (k : Str) : Option α :=
  (m.find? (fun p => p.1 = k)).map (·.2)

/-- JS-object style assignment on an association list: overwrite in place if
the key is present (iteration order keeps the first-insertion position),
append otherwise. -/
def assocUpd {α : Type} (m : List (Str × α)) (k : Str) (v : α) : List (Str × α) :=
  if (m.find? (fun p => p.1 = k)).isSome then
    m.map (fun p => if p.1 = k then (k, v) else p)
  else m ++ [(k, v)]

/- Fetch the node at a path. -/
mutual

def getAt : JSXNode → TreePath → Option JSXNode
  | n, [] => some n
  | .elem _ _ _ _ cs, i :: p => getAtL cs i p
  | _, _ :: _ => none

def getAtL : List JSXNode → Nat → TreePath → Option JSXNode
  | [], _, _ => none
  | c :: _, 0, p => getAt c p
  | _ :: cs, i + 1, p => getAtL cs i p

end

/- Replace the node at a path (the `splice(i, 1, res)` of `expandMacros`);
an invalid path leaves the tree unchanged. -/
mutual

def replaceAt : JSXNode → TreePath → JSXNode → JSXNode
  | _, [], res => res
  | .elem nm a sc cn cs, i :: p, res => .elem nm a sc cn (replaceAtL cs i p res)
  | n, _ :: _, _ => n

def replaceAtL : List JSXNode → Nat → TreePath → JSXNode → List JSXNode
  | [], _, _, _ => []
  | c :: cs, 0, p, res => replaceAt c p res :: cs
  | c :: cs, i + 1, p, res => c :: replaceAtL cs i p res

end

/-! ## Slot machinery (`collectSlots`, `populateMacro`, `expandMacro`) -/

/-- What happens to a slot element during a batch of slot edits:
kept in place, dissolved into its children (`splice(i, 1, ...children)`),
or removed outright (`splice(i, 1)`). -/
inductive SlotAction where
  | keep
  | dissolve
  | remove
  deriving DecidableEq, Repr

/-- One positional edit: at `path` (in the original tree), insert `before`
as preceding siblings, then apply `action` to the node itself. -/
structure SlotOp where
  path : TreePath
  before : List JSXNode
  action : SlotAction

/- Apply a batch of positional edits.  Deeper edits are applied before the
edit of an enclosing node, matching the insertion-order (inner-first)
finalization loops of `populateMacro` and `expandMacro`; edits inside a
removed node are discarded, as the corresponding TypeScript splices mutate
an already detached node. -/
mutual

def applyOpsN (ops : List SlotOp) : JSXNode → JSXNode
  | .elem nm a sc cn cs => .elem nm a sc cn (applyOpsL ops 0 cs)
  | n => n

def applyOpsL (ops : List SlotOp) (j : Nat) : List JSXNode → List JSXNode
  | [] => []
  | c :: rest =>
    let subOps := ops.filterMap (fun o =>
      match o.path with
      | i :: p => if i = j ∧ p ≠ [] then some { o with path := p } else none
      | [] => none)
    let c' := applyOpsN subOps c
    let emitted :=
      match ops.find? (fun o => o.path = [j]) with
      | none => [c']
      | some o =>
        o.before ++
          (match o.action with
           | .keep => [c']
           | .dissolve => c'.children
           | .remove => [])
    emitted ++ applyOpsL ops (j + 1) rest

end

/-- Shift contribution of one edit to the index `i` of a sibling at parent
path `pref`: an insertion at or before `i` moves it right. -/
def opShiftAt (o : SlotOp) (pref : TreePath) (i : Nat) : Nat :=
  if o.path.dropLast = pref then
    match o.path.getLast? with
    | some k => if k ≤ i then o.before.length else 0
    | none => 0
  else 0

/-- New path, after a batch of pure insertions (`action = keep`), of the node
originally at `p`.  Used to keep tracking the identity of surviving slots
across the routing pass, as the TypeScript object references do. -/
def shiftPath (ops : List SlotOp) : TreePath → TreePath → TreePath
  | _, [] => []
  | pref, i :: rest =>
    (i + ops.foldl (fun acc o => acc + opShiftAt o pref i) 0) ::
      shiftPath ops (pref ++ [i]) rest

/-- A slot map: slot name to the slot element's path, in registration
(insertion) order. -/
abbrev SlotMap := List (Str × TreePath)

/-- The synthesized `<:slot name="default">` element of `addDefaultSlot`. -/
def defaultSlotNode : JSXNode :=
  .elem (str ":slot") [{ name := str "name", value := .lit (str "default") }]
    false (some (str ":slot")) []

/-- `addDefaultSlot`: append a default slot to the node's children and
return the updated node with the new slot's path. -/
def addDefaultSlot (node : JSXNode) : JSXNode × TreePath :=
  match node with
  | .elem nm a sc cn cs => (.elem nm a sc cn (cs ++ [defaultSlotNode]), [cs.length])
  | n => (n, [])

/-- The walk step of `collectSlots` on one visited element (an element with
an element parent): a `:slot` with a usable `name` attribute is recorded
(overwriting an earlier same-named slot), a nameless slot yields an error,
and a slot listed in `ignore` at this very position (the `node ===
islot?.node` identity test) is skipped. -/
def visitSlot (ignore : Option SlotMap) (p : TreePath) (c : JSXNode)
    (acc : SlotMap × LoaderState) : SlotMap × LoaderState :=
  match c with
  | .elem nm attrs _ _ _ =>
    if nm = str ":slot" then
      match getJSXAttribute attrs (str "name") with
      | none => (acc.1, addError acc.2 .error (str "missing slot \"name\" attribute"))
      | some s =>
        if s = [] then (acc.1, addError acc.2 .error (str "missing slot \"name\" attribute"))
        else
          match ignore with
          | some ig =>
            if assocFind ig s = some p then acc
            else (assocUpd acc.1 s p, acc.2)
          | none => (assocUpd acc.1 s p, acc.2)
    else acc
  | _ => acc

/- Post-order (acorn `walker.ancestor`) slot collection over the strict
descendants of a node, threading the slot map and diagnostics. -/
mutual

def collectSlotsN (ignore : Option SlotMap) (p : TreePath) (n : JSXNode)
    (acc : SlotMap × LoaderState) : SlotMap × LoaderState :=
  match n with
  | .elem _ _ _ _ cs => collectSlotsL ignore p 0 cs acc
  | _ => acc

def collectSlotsL (ignore : Option SlotMap) (p : TreePath) (j : Nat)
    (cs : List JSXNode) (acc : SlotMap × LoaderState) : SlotMap × LoaderState :=
  match cs with
  | [] => acc
  | c :: rest =>
    let acc := collectSlotsN ignore (p ++ [j]) c acc
    let acc := visitSlot ignore (p ++ [j]) c acc
    collectSlotsL ignore p (j + 1) rest acc

end

/-- `collectSlots`: collect the `:slot` descendants of `node` keyed by name;
when no `default` slot was found and no `ignore` map was given, synthesize
one as the last child (`addDefaultSlot`). -/
def collectSlots (node : JSXNode) (st : LoaderState) (ignore : Option SlotMap) :
    SlotMap × JSXNode × LoaderState :=
  let (m, st') := collectSlotsN ignore [] node ([], st)
  if (assocFind m (str "default")).isNone ∧ ignore.isNone then
    let (node', p) := addDefaultSlot node
    (m ++ [(str "default", p)], node', st')
  else (m, node, st')

/-- Target slot name of a use-site child: the child's literal `name`
attribute when it is an element carrying a non-empty one
(`getJSXAttribute(...) || SLOT_DEFAULT_NAME`), `default` otherwise. -/
def slotTargetName (n : JSXNode) : Str :=
  match n with
  | .elem _ attrs _ _ _ =>
    match getJSXAttribute attrs (str "name") with
    | some s => if s = [] then str "default" else s
    | none => str "default"
  | _ => str "default"

/-- Replace the attribute list of an element. -/
def setAttrs : JSXNode → List JSXAttr → JSXNode
  | .elem nm _ sc cn cs, a => .elem nm a sc cn cs
  | n, _ => n

/-- The attribute-merge loop of `populateMacro`: every use-site attribute
overwrites the same-named attribute of the destination root or is appended
to it. -/
def mergeAttrs (srcAttrs dstAttrs : List JSXAttr) : List JSXAttr :=
  (getJSXAttributeKeys srcAttrs).foldl (fun acc key =>
    match getJSXAttributeNode srcAttrs key with
    | none => acc
    | some sa =>
      if (getJSXAttributeNode acc key).isSome then setAttrValue acc key sa.value
      else acc ++ [sa]) dstAttrs

/-- The routed children for one slot: the use-site children targeting it, in
use-site order (each is spliced immediately before the slot, so successive
insertions preserve the relative order). -/
def routedChildren (srcChildren : List JSXNode) (slotName : Str) : List JSXNode :=
  srcChildren.filter (fun c => slotTargetName c = slotName)

/-- `populateMacro`: merge the use-site attributes onto `dst`, discover the
slots of `dst` (synthesizing a default slot if needed), route every use-site
child to the slot named by `slotTargetName` (children whose target slot does
not exist are silently dropped — the `TODO: error` branch), and, when
`removeSlots` is set, replace each collected slot by its children.  Returns
the rewritten tree, the slot map (positions updated across the insertions;
empty when `removeSlots`), and the diagnostics state. -/
def populateMacro (src dst : JSXNode) (st : LoaderState) (removeSlots : Bool) :
    JSXNode × SlotMap × LoaderState :=
  let dst := setAttrs dst (mergeAttrs src.attrs dst.attrs)
  let (slots, dst, st) := collectSlots dst st none
  let ops : List SlotOp := slots.map (fun nmp =>
    { path := nmp.2,
      before := routedChildren src.children nmp.1,
      action := if removeSlots then .dissolve else .keep })
  let dst := applyOpsN ops dst
  if removeSlots then (dst, [], st)
  else (dst, slots.map (fun nmp => (nmp.1, shiftPath ops [] nmp.2)), st)

/-- `expandMacro`: stamp the macro `md` at the use-site `use`.  Beyond
`MAX_NESTING` it reports `too many nested macros` and returns the use-site
unchanged.  Otherwise it deep-clones the stored body (the identity on
values), populates it, and — when keeping slots (inheritance expansion) —
removes every parent slot overridden by a same-named slot introduced by the
use-site body. -/
def expandMacro (use : JSXNode) (md : MacroDefinition) (st : LoaderState)
    (removeSlots : Bool) (nesting : Nat) : JSXNode × LoaderState :=
  if nesting > MAX_NESTING then
    (use, addError st .error (str "too many nested macros \"" ++ md.name ++ str "\""))
  else
    let ret := md.node
    let (ret, oldSlots, st) := populateMacro use ret st removeSlots
    if removeSlots then (ret, st)
    else
      let (newSlots, ret, st) := collectSlots ret st (some oldSlots)
      let rmOps : List SlotOp := newSlots.filterMap (fun nmp =>
        (assocFind oldSlots nmp.1).map (fun p =>
          { path := p, before := [], action := SlotAction.remove }))
      (applyOpsN rmOps ret, st)

/-! ## Macro expansion (`expandMacros`) -/

/- Post-order collection of macro use-sites: elements (with an element
parent, hence a non-empty path) whose tag is a registered macro name. -/
mutual

def macroUsesN (reg : List (Str × MacroDefinition)) : JSXNode → List (TreePath × JSXNode)
  | .elem _ _ _ _ cs => macroUsesL reg 0 cs
  | _ => []

def macroUsesL (reg : List (Str × MacroDefinition)) (j : Nat) :
    List JSXNode → List (TreePath × JSXNode)
  | [] => []
  | c :: rest =>
    (macroUsesN reg c).map (fun pu => (j :: pu.1, pu.2)) ++
    (match c with
     | .elem nm _ _ _ _ => if (assocFind reg nm).isSome then [([j], c)] else []
     | _ => []) ++
    macroUsesL reg (j + 1) rest

end

/-- `expandMacros`: walk the tree, stamping every macro use-site (collecting
matches first, then rewriting — diagnostics of the stamping pass come in
walk order), then replace each use with its expansion and recurse into the
replacement with the nesting counter incremented.  The recursion is bounded
by `fuel`; the TypeScript recursion always terminates, and every claim-level
statement proved below holds for every fuel value. -/
def expandMacros (fuel : Nat) (root : JSXNode) (st : LoaderState) (nesting : Nat) :
    JSXNode × LoaderState :=
  match fuel with
  | 0 => (root, st)
  | fuel + 1 =>
    let uses := macroUsesN st.macros root
    let stamped := uses.foldl (fun acc pu =>
      match lookupMacro acc.2 pu.2.tagName with
      | some md =>
        let r := expandMacro pu.2 md acc.2 true nesting
        (acc.1 ++ [(pu.1, r.1)], r.2)
      | none => acc) (([] : List (TreePath × JSXNode)), st)
    stamped.1.foldl (fun acc pr =>
      let tree := replaceAt acc.1 pr.1 pr.2
      match getAt tree pr.1 with
      | some sub =>
        let r := expandMacros fuel sub acc.2 (nesting + 1)
        (replaceAt tree pr.1 r.1, r.2)
      | none => (tree, acc.2)) (root, stamped.2)

/-! ## Macro collection (`collectMacro`) -/

/-- A JavaScript word-or-dash character, the class `[\-\w]`. -/
def wordDashChar (c : Char) : Bool := c.isAlphanum ∨ c = '_' ∨ c = '-'

/-- The `tag` attribute pattern `^([\-\w]+)(\:[\-\w]+)?$`: the name part and
the optional base part (`[\-\w]` cannot contain `:`, so splitting on `:` is
exact). -/
def tagMatch (tag : Str) : Option (Str × Option Str) :=
  match splitOnChar ':' tag with
  | [n] => if n ≠ [] ∧ n.all wordDashChar then some (n, none) else none
  | [n, b] =>
    if n ≠ [] ∧ n.all wordDashChar ∧ b ≠ [] ∧ b.all wordDashChar then
      some (n, some b)
    else none
  | _ => none

/-- `base.indexOf('-') > 0`: the base tag contains a dash at a position
past the first character (the condition for inheritance lookup). -/
def dashAfterStart (s : Str) : Bool :=
  0 < s.findIdx (· = '-') ∧ s.findIdx (· = '-') < s.length

/-- `collectMacro`: validate the `tag` attribute against the pattern, derive
`name` and `base` (default `div`), look up an inherited parent when `base`
names a dashed tag, strip the `tag` attribute, rename the opening (and
closing) tag of the body to `base` — promoting a self-closing body to paired
tags — expand against the parent definition when inheriting, and register
the descriptor (overwriting any earlier definition of the same name).
A `tag` that fails the pattern only yields a warning. -/
def collectMacro (node : JSXNode) (st : LoaderState) : LoaderState :=
  match getJSXAttribute node.attrs (str "tag") with
  | none => addError st .warning (str "bad or missing tag attribute")
  | some tag =>
    if tag = [] then addError st .warning (str "bad or missing tag attribute")
    else
      match tagMatch tag with
      | none =>
        addError st .warning
          (str "invalid tag name \"" ++ tag ++ str " (does it include a dash?)\"")
      | some nb =>
        let name := nb.1
        let base := nb.2.getD (str "div")
        let fromDef := if dashAfterStart base then lookupMacro st base else none
        match node with
        | .elem _ attrs sc _ cs =>
          -- remove the tag attribute; rename opening and closing tags to
          -- `base`; a self-closing body is promoted to paired tags (the
          -- synthesized closing element), a paired body has its closing tag
          -- renamed — both end as paired tags named `base`.
          let attrs' := removeJSXAttribute attrs (str "tag")
          let _ := sc
          let node' := JSXNode.elem base attrs' false (some base) cs
          match fromDef with
          | some fd =>
            let r := expandMacro node' fd st false 0
            setMacro r.2 name (.mk name r.1 base fromDef)
          | none => setMacro st name (.mk name node' base fromDef)
        | _ => st

/-! ## Parsing and directive processing (`parse`, `processDirectives`,
`processInclude`)

`processDirectives` collects every directive (an element whose tag starts
with `:` and whose immediate parent is an element) in a post-order
`walker.ancestor` walk and then processes the collected list sequentially,
locating each node in its parent by object identity.  Since the collection
order is exactly post-order document order, inner directives are processed
before any enclosing one, and content spliced in by an inclusion is never
itself rescanned, this equals a post-order fold over the tree that handles
each directive child in place; the fold below realizes that, threading the
parent's attribute list (mutated by `applyIncludedAttributes`) and the
loader state in the same order as the TypeScript loop. -/

/-- `applyIncludedAttributes`: append to the referring parent every
attribute of the included root whose name is not already present on the
parent's opening tag (existing attributes win). -/
def applyIncludedAttributes (parentAttrs : List JSXAttr) (root : JSXNode) :
    List JSXAttr :=
  let existing := getJSXAttributeKeys parentAttrs
  (getJSXAttributeKeys root.attrs).foldl (fun acc key =>
    if key ∈ existing then acc
    else
      match getJSXAttributeNode root.attrs key with
      | some a => acc ++ [a]
      | none => acc) parentAttrs

/-- The include-content trim: drop a single leading and a single trailing
all-whitespace text child (exactly one each, by design). -/
def trimIncluded (nn : List JSXNode) : List JSXNode :=
  let nn' :=
    match nn with
    | .text v :: rest => if isBlank v then rest else nn
    | _ => nn
  match nn'.getLast? with
  | some (.text v) => if isBlank v then nn'.dropLast else nn'
  | _ => nn'

/- The recursive structure: `parse` resolves and reads a file, delegates to
the external parser, checks the shape of the result and processes its
directives; handling an `:include`/`:import` re-enters `parse` with the
nesting counter incremented.  The re-entry is passed to the directive
processors as an explicit callback (`ParseFn`), so that the tree walk is
structurally recursive and `parse` itself recurses only on `fuel`.  `load`
supplies `fuel = MAX_NESTING`; because `parse` checks
`nesting ≥ MAX_NESTING` before consuming fuel and the recursion keeps
`fuel + nesting` constant, the fuel-exhaustion branch is unreachable from
`load`. -/

/-- The recursive re-entry into `parse` seen by the directive processors:
file name, current directory, state, nesting, once flag. -/
abbrev ParseFn := Str → Str → LoaderState → Nat → Bool → Option Program × LoaderState

/-- `processInclude`: read the `src` attribute (absent or blank yields
`missing src attribute`), recursively parse the referenced file with the
nesting counter incremented (`once` for `:import`), then apply the included
root's attributes to the referring parent and splice in its trimmed
children. -/
def processInclude (pc : ParseFn) (dname : Str) (node : JSXNode)
    (parentAttrs : List JSXAttr) (currDir : Str) (st : LoaderState)
    (nesting : Nat) : LoaderState × List JSXAttr × List JSXNode :=
  match getJSXAttribute node.attrs (str "src") with
  | none => (addError st .error (str "missing src attribute"), parentAttrs, [])
  | some s =>
    if isBlank s then
      (addError st .error (str "missing src attribute"), parentAttrs, [])
    else
      let r := pc s currDir st (nesting + 1) (dname = str ":import")
      match r.1 with
      | none => (r.2, parentAttrs, [])
      | some prog =>
        match prog with
        | rootElem :: _ =>
          (r.2, applyIncludedAttributes parentAttrs rootElem,
           trimIncluded rootElem.children)
        | [] => (r.2, parentAttrs, [])

mutual

/-- `processDirectives` over the statement list of a program: top-level
elements are not directives themselves (their parent is the `Program`
node), but their subtrees are processed. -/
def processProgram (pc : ParseFn) (prog : Program) (currDir : Str)
    (st : LoaderState) (nesting : Nat) : Program × LoaderState :=
  match prog with
  | [] => ([], st)
  | n :: rest =>
    let r := processNode pc n currDir st nesting
    let r' := processProgram pc rest currDir r.2 nesting
    (r.1 :: r'.1, r'.2)

/-- Process the subtree of one node: directives among its descendants are
handled, parent-attribute updates from inclusions are applied. -/
def processNode (pc : ParseFn) (n : JSXNode) (currDir : Str)
    (st : LoaderState) (nesting : Nat) : JSXNode × LoaderState :=
  match n with
  | .elem nm a sc cn cs =>
    let r := processChildren pc cs a currDir st nesting
    (.elem nm r.2.1 sc cn r.2.2, r.1)
  | other => (other, st)

/-- Process a child list: each child's subtree first (post-order), then the
child itself when it is a directive — `:include`/`:import` splice in the
included content, `:define` is collected and removed, `:slot` is retained,
anything else is removed with an `unknown directive` warning.  Returns the
state, then the parent's updated attribute list and the new child list. -/
def processChildren (pc : ParseFn) (cs : List JSXNode)
    (parentAttrs : List JSXAttr) (currDir : Str)
    (st : LoaderState) (nesting : Nat) :
    LoaderState × List JSXAttr × List JSXNode :=
  match cs with
  | [] => (st, parentAttrs, [])
  | c :: rest =>
    let rc := processNode pc c currDir st nesting
    let c' := rc.1
    let step : LoaderState × List JSXAttr × List JSXNode :=
      match c' with
      | .elem nm _ _ _ _ =>
        if isDirectiveName nm then
          if nm = str ":include" ∨ nm = str ":import" then
            processInclude pc nm c' parentAttrs currDir rc.2 nesting
          else if nm = str ":define" then
            (collectMacro c' rc.2, parentAttrs, [])
          else if nm = str ":slot" then (rc.2, parentAttrs, [c'])
          else
            (addError rc.2 .warning (str "unknown directive " ++ nm),
             parentAttrs, [])
        else (rc.2, parentAttrs, [c'])
      | other => (rc.2, parentAttrs, [other])
    let rr := processChildren pc rest step.2.1 currDir step.1 nesting
    (rr.1, rr.2.1, step.2.2 ++ rr.2.2)

end

/-- The read/parse/shape-check/process tail of `CodeLoader.parse` (after the
visited-files bookkeeping). -/
def parseRead (pc : ParseFn) (relPath pname : Str) (env : LoaderEnv)
    (st : LoaderState) (nesting : Nat) : Option Program × LoaderState :=
  match env.readFile pname with
  | none => (none, addError st .error (str "failed to read \"" ++ relPath ++ str "\""))
  | some text =>
    match env.parseFile text relPath with
    | .error e =>
      (none, addError st .error (e ++ str " in \"" ++ relPath ++ str "\""))
    | .ok program =>
      match program with
      | .elem nm a sc cn cs :: rest =>
        let r := processProgram pc (JSXNode.elem nm a sc cn cs :: rest)
          (pathDirname relPath) st nesting
        (some r.1, r.2)
      | _ =>
        (none, addError st .error (str "HTML tag expected \"" ++ relPath ++ str "\""))

/-- The path-resolution and visited-files stage of `CodeLoader.parse`, after
the current directory has been reset for absolute names: canonicalize the
join of root, current directory and name, reject paths escaping the root
with a fatal `forbidden pathname` diagnostic, record the root-relative path
unless already visited, and skip already-visited files when `once`. -/
def parseResolve (pc : ParseFn) (fname cdx : Str) (env : LoaderEnv)
    (st : LoaderState) (nesting : Nat) (once : Bool) :
    Option Program × LoaderState :=
  let pname := pathNormalize (pathJoin [env.root, cdx, fname])
  if ¬ (env.root.isPrefixOf pname) then
    (none, addError st .error
      (str "forbidden pathname \"" ++ pathRelative env.root pname ++ str "\""))
  else
    let relPath := pname.drop env.root.length
    if relPath ∈ st.files then
      if once then (none, st)
      else parseRead pc relPath pname env st nesting
    else
      parseRead pc relPath pname env
        { st with files := st.files ++ [relPath] } nesting

/-- `CodeLoader.parse`: depth guard, current-directory reset for absolute
names, then path resolution, file read, external parse, shape check and
directive processing (`parseResolve`/`parseRead`). -/
def parse (fuel : Nat) (fname currDir : Str) (env : LoaderEnv)
    (st : LoaderState) (nesting : Nat) (once : Bool) :
    Option Program × LoaderState :=
  if nesting ≥ MAX_NESTING then
    (none, addError st .error (str "too many nested inclusions"))
  else
    match fuel with
    | 0 => (none, st)
    | fuel + 1 =>
      parseResolve (fun fn cd st' n o => parse fuel fn cd env st' n o)
        fname (if fname.head? = some '/' then [] else currDir) env st nesting once

/-! ## `load` -/

/-- Fuel for the macro-expansion pass; every claim-level statement about
`expandMacros` below is proved for all fuel values. -/
def MACRO_FUEL : Nat := MAX_NESTING + 2

/-- The `CodeSource`/`CodeLoaderSource` record returned by `load`. -/
structure CodeSource where
  ast : Option Program
  files : List Str
  errors : List Diag
  macros : List (Str × MacroDefinition)

/-- The macro-expansion pass over the statement list of the parsed program
(top-level elements are themselves never use-sites: their parent is the
`Program` node). -/
def expandMacrosProgram (fuel : Nat) (prog : Program) (st : LoaderState) :
    Program × LoaderState :=
  match prog with
  | [] => ([], st)
  | n :: rest =>
    let r := expandMacros fuel n st 0
    let r' := expandMacrosProgram fuel rest r.2
    (r.1 :: r'.1, r'.2)

/-- `CodeLoader.load`: parse the entry file from the document root, then
expand macros over the consolidated tree, and return the session. -/
def load (fname : Str) (env : LoaderEnv) : CodeSource :=
  let r := parse MAX_NESTING fname (str ".") env initState 0 false
  match r.1 with
  | some prog =>
    let r' := expandMacrosProgram MACRO_FUEL prog r.2
    { ast := some r'.1, files := r'.2.files, errors := r'.2.errors,
      macros := r'.2.macros }
  | none =>
    { ast := none, files := r.2.files, errors := r.2.errors,
      macros := r.2.macros }

/-! ## State-evolution lemmas

The macro machinery only appends diagnostics; the visited-files list is
written at a single site in `parse`, guarded by a membership test and by the
sandbox check.  The lemmas below make those facts available compositionally
for the session-level invariants. -/

/-- A state transition that only appends diagnostics. -/
def ErrOnly (st st' : LoaderState) : Prop :=
  st'.files = st.files ∧ st'.macros = st.macros

theorem errOnly_refl (st : LoaderState) : ErrOnly st st := ⟨rfl, rfl⟩

theorem errOnly_trans {s t u : LoaderState} (h1 : ErrOnly s t) (h2 : ErrOnly t u) :
    ErrOnly s u := ⟨h2.1.trans h1.1, h2.2.trans h1.2⟩

theorem addError_errOnly (st : LoaderState) (t : Sev) (m : Str) :
    ErrOnly st (addError st t m) := ⟨rfl, rfl⟩

theorem visitSlot_errOnly (ig : Option SlotMap) (p : TreePath) (c : JSXNode)
    (acc : SlotMap × LoaderState) : ErrOnly acc.2 (visitSlot ig p c acc).2 := by
  unfold visitSlot
  split <;> try exact errOnly_refl _
  split
  · split
    · exact ⟨rfl, rfl⟩
    · split
      · exact ⟨rfl, rfl⟩
      · split
        · split
          · exact errOnly_refl _
          · exact errOnly_refl _
        · exact errOnly_refl _
  · exact errOnly_refl _

mutual

theorem collectSlotsN_errOnly (ig : Option SlotMap) (p : TreePath) (n : JSXNode)
    (acc : SlotMap × LoaderState) : ErrOnly acc.2 (collectSlotsN ig p n acc).2 := by
  unfold collectSlotsN
  split
  · exact collectSlotsL_errOnly ig _ 0 _ acc
  · exact errOnly_refl _

theorem collectSlotsL_errOnly (ig : Option SlotMap) (p : TreePath) (j : Nat)
    (cs : List JSXNode) (acc : SlotMap × LoaderState) :
    ErrOnly acc.2 (collectSlotsL ig p j cs acc).2 := by
  unfold collectSlotsL
  split
  · exact errOnly_refl _
  · exact errOnly_trans
      (errOnly_trans (collectSlotsN_errOnly ig _ _ acc) (visitSlot_errOnly ig _ _ _))
      (collectSlotsL_errOnly ig _ _ _ _)

end

theorem collectSlots_state (n : JSXNode) (st : LoaderState) (ig : Option SlotMap) :
    (collectSlots n st ig).2.2 = (collectSlotsN ig [] n ([], st)).2 := by
  unfold collectSlots
  rcases h : collectSlotsN ig [] n ([], st) with ⟨m, st1⟩
  rcases h2 : addDefaultSlot n with ⟨n1, p⟩
  simp only [h, h2]
  split <;> rfl

theorem collectSlots_errOnly (n : JSXNode) (st : LoaderState) (ig : Option SlotMap) :
    ErrOnly st (collectSlots n st ig).2.2 := by
  rw [collectSlots_state]
  exact collectSlotsN_errOnly ig [] n ([], st)

theorem populateMacro_state (src dst : JSXNode) (st : LoaderState) (rm : Bool) :
    (populateMacro src dst st rm).2.2 =
      (collectSlots (setAttrs dst (mergeAttrs src.attrs dst.attrs)) st none).2.2 := by
  unfold populateMacro
  rcases h : collectSlots (setAttrs dst (mergeAttrs src.attrs dst.attrs)) st none
    with ⟨slots, dst1, st1⟩
  simp only [h]
  split <;> rfl

theorem populateMacro_errOnly (src dst : JSXNode) (st : LoaderState) (rm : Bool) :
    ErrOnly st (populateMacro src dst st rm).2.2 := by
  rw [populateMacro_state]
  exact collectSlots_errOnly _ _ _

theorem expandMacro_errOnly (use : JSXNode) (md : MacroDefinition)
    (st : LoaderState) (rm : Bool) (nesting : Nat) :
    ErrOnly st (expandMacro use md st rm nesting).2 := by
  unfold expandMacro
  split
  · exact errOnly_refl _
  · rcases h : populateMacro use md.node st rm with ⟨ret, oldSlots, st1⟩
    have h1 : ErrOnly st st1 := by
      have := populateMacro_errOnly use md.node st rm
      rw [h] at this; exact this
    simp only [h]
    split
    · exact h1
    · rcases h2 : collectSlots ret st1 (some oldSlots) with ⟨ns, ret1, st2⟩
      have h3 : ErrOnly st1 st2 := by
        have := collectSlots_errOnly ret st1 (some oldSlots)
        rw [h2] at this; exact this
      simp only [h2]
      exact errOnly_trans h1 h3

theorem expandMacros_errOnly (fuel : Nat) :
    ∀ (root : JSXNode) (st : LoaderState) (nesting : Nat),
      ErrOnly st (expandMacros fuel root st nesting).2 := by
  induction fuel with
  | zero => intro root st n; exact errOnly_refl st
  | succ f ih =>
    intro root st n
    unfold expandMacros
    have h1 : ∀ (l : List (TreePath × JSXNode))
        (acc : List (TreePath × JSXNode) × LoaderState), ErrOnly st acc.2 →
        ErrOnly st (l.foldl (fun acc pu =>
          match lookupMacro acc.2 pu.2.tagName with
          | some md =>
            let r := expandMacro pu.2 md acc.2 true n
            (acc.1 ++ [(pu.1, r.1)], r.2)
          | none => acc) acc).2 := by
      intro l
      induction l with
      | nil => intro acc h; exact h
      | cons a l ihl =>
        intro acc h
        simp only [List.foldl_cons]
        apply ihl
        rcases hm : lookupMacro acc.2 a.2.tagName with _ | md
        · simpa [hm] using h
        · simpa [hm] using errOnly_trans h (expandMacro_errOnly a.2 md acc.2 true n)
    have h2 : ∀ (l : List (TreePath × JSXNode)) (acc : JSXNode × LoaderState),
        ErrOnly st acc.2 →
        ErrOnly st (l.foldl (fun acc pr =>
          let tree := replaceAt acc.1 pr.1 pr.2
          match getAt tree pr.1 with
          | some sub =>
            let r := expandMacros f sub acc.2 (n + 1)
            (replaceAt tree pr.1 r.1, r.2)
          | none => (tree, acc.2)) acc).2 := by
      intro l
      induction l with
      | nil => intro acc h; exact h
      | cons a l ihl =>
        intro acc h
        simp only [List.foldl_cons]
        apply ihl
        rcases hg : getAt (replaceAt acc.1 a.1 a.2) a.1 with _ | sub
        · simpa [hg] using h
        · simpa [hg] using errOnly_trans h (ih sub acc.2 (n + 1))
    exact h2 _ _ (h1 _ ([], st) (errOnly_refl st))

theorem expandMacrosProgram_errOnly (fuel : Nat) (prog : Program) :
    ∀ st : LoaderState, ErrOnly st (expandMacrosProgram fuel prog st).2 := by
  induction prog with
  | nil => intro st; exact errOnly_refl st
  | cons n rest ih =>
    intro st
    unfold expandMacrosProgram
    exact errOnly_trans (expandMacros_errOnly fuel n st 0) (ih _)

/-- `collectMacro` never touches the visited-files list. -/
theorem collectMacro_files (c : JSXNode) (st : LoaderState) :
    (collectMacro c st).files = st.files := by
  unfold collectMacro
  rcases getJSXAttribute c.attrs (str "tag") with _ | tag
  · rfl
  · simp only []
    split
    · rfl
    · rcases tagMatch tag with _ | nb
      · rfl
      · simp only []
        rcases c with ⟨nm, attrs, sc, cn, cs⟩ | v | t
        · simp only []
          split
          · exact ((expandMacro_errOnly _ _ st false 0).1)
          · rfl
        · rfl
        · rfl

/-! ## The visited-files invariant (claims C1 and C9)

Every entry appended to `files` is the root-relative remainder of a
canonicalized join that passed the sandbox test, and an entry is appended
only when it is not already present. -/

/-- An entry of the visited-files list: the root-relative part of the
canonical path of some requested (current directory, file name) pair, whose
canonical path has the document root as a prefix. -/
def GoodEntry (root e : Str) : Prop :=
  ∃ cd fn,
    root.isPrefixOf (pathNormalize (pathJoin [root, cd, fn])) = true ∧
    e = (pathNormalize (pathJoin [root, cd, fn])).drop root.length

/-- How a loader step may change the visited-files list: every new entry is
a `GoodEntry`, and no duplicate is introduced. -/
def StateExt (root : Str) (st st' : LoaderState) : Prop :=
  (∀ e ∈ st'.files, e ∈ st.files ∨ GoodEntry root e) ∧
  (st.files.Nodup → st'.files.Nodup)

theorem stateExt_refl (root : Str) (st : LoaderState) : StateExt root st st :=
  ⟨fun e he => Or.inl he, fun h => h⟩

theorem stateExt_trans {root : Str} {s t u : LoaderState}
    (h1 : StateExt root s t) (h2 : StateExt root t u) : StateExt root s u := by
  refine ⟨fun e he => ?_, fun h => h2.2 (h1.2 h)⟩
  rcases h2.1 e he with h' | h'
  · exact h1.1 e h'
  · exact Or.inr h'

theorem filesEq_stateExt {root : Str} {s t : LoaderState}
    (h : t.files = s.files) : StateExt root s t :=
  ⟨fun e he => Or.inl (h ▸ he), fun hn => h ▸ hn⟩

theorem errOnly_stateExt {root : Str} {s t : LoaderState} (h : ErrOnly s t) :
    StateExt root s t := filesEq_stateExt h.1

theorem processInclude_stateExt (root : Str) (pc : ParseFn)
    (Hpc : ∀ fn cd st n o, StateExt root st (pc fn cd st n o).2)
    (dname : Str) (node : JSXNode) (pa : List JSXAttr) (cd : Str)
    (st : LoaderState) (n : Nat) :
    StateExt root st (processInclude pc dname node pa cd st n).1 := by
  unfold processInclude
  rcases getJSXAttribute node.attrs (str "src") with _ | s
  · exact errOnly_stateExt (addError_errOnly st .error _)
  · simp only []
    split
    · exact errOnly_stateExt (addError_errOnly st .error _)
    · rcases h : (pc s cd st (n + 1) (dname = str ":import")).1 with _ | prog
      · simpa [h] using Hpc s cd st (n + 1) (dname = str ":import")
      · rcases prog with _ | ⟨rootElem, rest⟩
        · simpa [h] using Hpc s cd st (n + 1) (dname = str ":import")
        · simpa [h] using Hpc s cd st (n + 1) (dname = str ":import")

mutual

theorem processProgram_stateExt (root : Str) (pc : ParseFn)
    (Hpc : ∀ fn cd st n o, StateExt root st (pc fn cd st n o).2)
    (prog : Program) (cd : Str) (st : LoaderState) (n : Nat) :
    StateExt root st (processProgram pc prog cd st n).2 := by
  match prog with
  | [] => exact stateExt_refl root st
  | x :: rest =>
    unfold processProgram
    exact stateExt_trans (processNode_stateExt root pc Hpc x cd st n)
      (processProgram_stateExt root pc Hpc rest cd _ n)

theorem processNode_stateExt (root : Str) (pc : ParseFn)
    (Hpc : ∀ fn cd st n o, StateExt root st (pc fn cd st n o).2)
    (x : JSXNode) (cd : Str) (st : LoaderState) (n : Nat) :
    StateExt root st (processNode pc x cd st n).2 := by
  match x with
  | .elem nm a sc cn cs =>
    unfold processNode
    exact processChildren_stateExt root pc Hpc cs a cd st n
  | .text v => exact stateExt_refl root st
  | .exprFragment t => exact stateExt_refl root st

theorem processChildren_stateExt (root : Str) (pc : ParseFn)
    (Hpc : ∀ fn cd st n o, StateExt root st (pc fn cd st n o).2)
    (cs : List JSXNode) (pa : List JSXAttr) (cd : Str) (st : LoaderState)
    (n : Nat) : StateExt root st (processChildren pc cs pa cd st n).1 := by
  match cs with
  | [] => exact stateExt_refl root st
  | c :: rest =>
    unfold processChildren
    refine stateExt_trans (stateExt_trans
      (processNode_stateExt root pc Hpc c cd st n) ?_)
      (processChildren_stateExt root pc Hpc rest _ cd _ n)
    split
    · split
      · split
        · exact processInclude_stateExt root pc Hpc _ _ _ _ _ _
        · split
          · exact filesEq_stateExt (collectMacro_files _ _)
          · split
            · exact stateExt_refl root _
            · exact errOnly_stateExt (addError_errOnly _ .warning _)
      · exact stateExt_refl root _
    · exact stateExt_refl root _

end

theorem parseRead_stateExt (root : Str) (pc : ParseFn)
    (Hpc : ∀ fn cd st n o, StateExt root st (pc fn cd st n o).2)
    (relPath pname : Str) (env : LoaderEnv) (hroot : env.root = root)
    (st : LoaderState) (n : Nat) :
    StateExt root st (parseRead pc relPath pname env st n).2 := by
  unfold parseRead
  rcases env.readFile pname with _ | text
  · exact errOnly_stateExt (addError_errOnly st .error _)
  · simp only []
    rcases env.parseFile text relPath with e | program
    · exact errOnly_stateExt (addError_errOnly st .error _)
    · rcases program with _ | ⟨x, rest⟩
      · exact errOnly_stateExt (addError_errOnly st .error _)
      · rcases x with ⟨nm, a, sc, cn, cs⟩ | v | t
        · exact processProgram_stateExt root pc Hpc _ _ st n
        · exact errOnly_stateExt (addError_errOnly st .error _)
        · exact errOnly_stateExt (addError_errOnly st .error _)

/-- Appending the fresh entry at the single write site of `parse` is a legal
files-list extension. -/
theorem push_stateExt (root : Str) (st : LoaderState) (cd fn : Str)
    (hpre : root.isPrefixOf (pathNormalize (pathJoin [root, cd, fn])) = true)
    (hnew : (pathNormalize (pathJoin [root, cd, fn])).drop root.length ∉ st.files) :
    StateExt root st
      { st with files :=
          st.files ++ [(pathNormalize (pathJoin [root, cd, fn])).drop root.length] } := by
  constructor
  · intro e he
    simp only [List.mem_append, List.mem_singleton] at he
    rcases he with he | he
    · exact Or.inl he
    · exact Or.inr ⟨cd, fn, hpre, he⟩
  · intro h
    simp [List.nodup_append, h, hnew]

theorem parseResolve_stateExt (root : Str) (pc : ParseFn)
    (Hpc : ∀ fn cd st n o, StateExt root st (pc fn cd st n o).2)
    (fname cdx : Str) (env : LoaderEnv) (hroot : env.root = root)
    (st : LoaderState) (n : Nat) (o : Bool) :
    StateExt root st (parseResolve pc fname cdx env st n o).2 := by
  subst hroot
  simp only [parseResolve]
  split
  · exact errOnly_stateExt (addError_errOnly st .error _)
  · split
    · split
      · exact stateExt_refl _ st
      · exact parseRead_stateExt env.root pc Hpc _ _ env rfl st n
    · rename_i hpre hmem
      exact stateExt_trans
        (push_stateExt env.root st cdx fname (not_not.mp hpre) hmem)
        (parseRead_stateExt env.root pc Hpc _ _ env rfl _ n)

/-- The state evolution of `parse`: every files entry added during a parse
is a `GoodEntry`, and the files list stays duplicate-free. -/
theorem parse_stateExt (fuel : Nat) :
    ∀ (fname cd : Str) (env : LoaderEnv) (st : LoaderState) (n : Nat) (o : Bool),
      StateExt env.root st (parse fuel fname cd env st n o).2 := by
  induction fuel with
  | zero =>
    intro fname cd env st n o
    unfold parse
    split
    · exact errOnly_stateExt (addError_errOnly st .error _)
    · exact stateExt_refl _ st
  | succ f ih =>
    intro fname cd env st n o
    unfold parse
    split
    · exact errOnly_stateExt (addError_errOnly st .error _)
    · split
      · exact stateExt_refl _ st
      · rename_i fuel heq
        have hf : fuel = f := by omega
        subst hf
        exact parseResolve_stateExt env.root _
          (fun fn cd' st' n' o' => ih fn cd' env st' n' o') fname _ env rfl st n o

/-- Files list of a session: macro expansion appends only diagnostics, so
the session's files are those of the parse stage. -/
theorem load_files_eq (fname : Str) (env : LoaderEnv) :
    (load fname env).files = (parse MAX_NESTING fname (str ".") env initState 0 false).2.files := by
  unfold load
  rcases h : parse MAX_NESTING fname (str ".") env initState 0 false with ⟨ast, st⟩
  rcases ast with _ | prog
  · rfl
  · simp only []
    exact (expandMacrosProgram_errOnly MACRO_FUEL prog st).1

/-! ## Concrete load scenarios

Shared constructors for the environments of the end-to-end scenarios; file
contents are given directly as parsed trees through the parser oracle. -/

/-- A paired-tag element with literal attributes. -/
def mkElem (nm : String) (attrs : List (String × String)) (cs : List JSXNode) : JSXNode :=
  .elem (str nm) (attrs.map (fun p => { name := str p.1, value := .lit (str p.2) }))
    false (some (str nm)) cs

/-- A text node. -/
def mkText (s : String) : JSXNode := .text (str s)

/-- An environment over a document root with a fixed relative-path → tree
table: reads succeed exactly on the table's paths, and the parser oracle
returns the recorded tree. -/
def mkEnv (root : String) (fs : List (String × Program)) : LoaderEnv :=
  { root := str root,
    readFile := fun p =>
      if (fs.find? (fun q => str root ++ str q.1 = p)).isSome then some p else none,
    parseFile := fun _ rel =>
      match fs.find? (fun q => str q.1 = rel) with
      | some q => .ok q.2
      | none => .error (str "no such file") }

/-- The forbidden-path scenario: an empty document root. -/
def envForbidden : LoaderEnv := mkEnv "/www" []

/-- C1: every files entry denotes a canonical path within the document
root; when the canonicalized join of root, current directory and requested
name does not have the root as a prefix, `parse` records a fatal
`forbidden pathname` diagnostic, returns no tree, and adds no files entry;
in particular `load "../etc/passwd"` returns a session with no tree, the
single forbidden-pathname error, and an empty files list. -/
theorem claim_C1 :
    (∀ (fuel : Nat) (fname currDir : Str) (env : LoaderEnv) (st : LoaderState)
        (nesting : Nat) (once : Bool),
      nesting < MAX_NESTING →
      env.root.isPrefixOf
        (pathNormalize (pathJoin [env.root,
          if fname.head? = some '/' then [] else currDir, fname])) = false →
      parse (fuel + 1) fname currDir env st nesting once =
        (none, addError st .error
          (str "forbidden pathname \"" ++
            pathRelative env.root
              (pathNormalize (pathJoin [env.root,
                if fname.head? = some '/' then [] else currDir, fname])) ++
            str "\"")) ∧
      (parse (fuel + 1) fname currDir env st nesting once).2.files = st.files) ∧
    (∀ (fname : Str) (env : LoaderEnv),
      ∀ e ∈ (load fname env).files, GoodEntry env.root e) ∧
    ((load (str "../etc/passwd") envForbidden).ast = none ∧
     (load (str "../etc/passwd") envForbidden).errors =
       [{ type := .error, msg := str "forbidden pathname \"../etc/passwd\"" }] ∧
     (load (str "../etc/passwd") envForbidden).files = []) := by
  refine ⟨?_, ?_, ?_, ?_, ?_⟩
  · intro fuel fname currDir env st nesting once hn hpre
    have hg : ¬ nesting ≥ MAX_NESTING := by omega
    constructor
    · simp [parse, parseResolve, hg, hpre]
    · simp [parse, parseResolve, hg, hpre, addError]
  · intro fname env e he
    rw [load_files_eq] at he
    rcases (parse_stateExt MAX_NESTING fname (str ".") env initState 0 false).1 e he
      with h | h
    · simp [initState] at h
    · exact h
  · rfl
  · rfl
  · rfl

/-- Witness for the universally quantified part of `claim_C1`, discharged at
a concrete escaping request. -/
theorem claim_C1_witness :
    (0 : Nat) < MAX_NESTING ∧
    envForbidden.root.isPrefixOf
      (pathNormalize (pathJoin [envForbidden.root,
        if (str "../etc/passwd").head? = some '/' then [] else str ".",
        str "../etc/passwd"])) = false ∧
    parse 1 (str "../etc/passwd") (str ".") envForbidden initState 0 false =
      (none, addError initState .error
        (str "forbidden pathname \"" ++
          pathRelative envForbidden.root
            (pathNormalize (pathJoin [envForbidden.root,
              if (str "../etc/passwd").head? = some '/' then [] else str ".",
              str "../etc/passwd"])) ++
          str "\"")) := by
  refine ⟨by decide, by decide, ?_⟩
  exact (claim_C1.1 0 (str "../etc/passwd") (str ".") envForbidden initState 0 false
    (by decide) (by decide)).1

/-- The repeated-`:include` scenario: the same file included twice. -/
def envIncludeTwice : LoaderEnv := mkEnv "/www"
  [("/a.html", [mkElem "html" [] [mkElem ":include" [("src", "b.html")] [],
                                  mkElem ":include" [("src", "b.html")] []]]),
   ("/b.html", [mkElem "div" [] [mkText "B"]])]

/-- C9: the session's files list never contains duplicate entries, for every
load and any mix of directives: a path is appended only when not already
present; in particular repeated `:include` of the same file re-splices its
content but leaves a single files entry. -/
theorem claim_C9 :
    (∀ (fname : Str) (env : LoaderEnv), (load fname env).files.Nodup) ∧
    (load (str "a.html") envIncludeTwice).files =
      [str "/a.html", str "/b.html"] ∧
    (load (str "a.html") envIncludeTwice).ast =
      some [mkElem "html" [] [mkText "B", mkText "B"]] := by
  refine ⟨?_, ?_, ?_⟩
  · intro fname env
    rw [List.nodup_iff_sublist]
    intro a ha
    have h := load_files_eq fname env
    have hnd : (load fname env).files.Nodup := by
      rw [h]
      exact (parse_stateExt MAX_NESTING fname (str ".") env initState 0 false).2
        (by simp [initState])
    rw [List.nodup_iff_sublist] at hnd
    exact hnd a ha
  · rfl
  · rfl

/-! ## The inclusion-depth bound (claim C2) -/

/- Macro expansion with an empty registry is the identity. -/
mutual

theorem macroUsesN_nil : ∀ n : JSXNode, macroUsesN [] n = []
  | .elem _ _ _ _ cs => by
    unfold macroUsesN
    exact macroUsesL_nil 0 cs
  | .text _ => rfl
  | .exprFragment _ => rfl

theorem macroUsesL_nil (j : Nat) : ∀ cs : List JSXNode, macroUsesL [] j cs = []
  | [] => rfl
  | c :: rest => by
    unfold macroUsesL
    rw [macroUsesN_nil c, macroUsesL_nil (j + 1) rest]
    rcases c with ⟨nm, a, sc, cn, cs⟩ | v | t <;> simp [assocFind]

end

theorem expandMacros_no_macros (fuel : Nat) (root : JSXNode) (st : LoaderState)
    (n : Nat) (h : st.macros = []) : expandMacros fuel root st n = (root, st) := by
  cases fuel with
  | zero => rfl
  | succ f =>
    unfold expandMacros
    rw [h, macroUsesN_nil root]
    rfl

theorem expandMacrosProgram_no_macros (fuel : Nat) (prog : Program)
    (st : LoaderState) (h : st.macros = []) :
    expandMacrosProgram fuel prog st = (prog, st) := by
  induction prog with
  | nil => rfl
  | cons x rest ih =>
    unfold expandMacrosProgram
    rw [expandMacros_no_macros fuel x st 0 h]
    simp only []
    rw [ih]

/-- The `i`-th file of the linear inclusion chain, in unary: `/a`, `/aa`,
`/aaa`, ... -/
def chainFile (i : Nat) : Str := '/' :: List.replicate (i + 1) 'a'

/-- The page whose single child is `<:include src="/a…a"/>` with `m`
letters. -/
def chainPage (m : Nat) : Program :=
  [.elem (str "html") [] false (some (str "html"))
    [.elem (str ":include")
      [{ name := str "src", value := .lit ('/' :: List.replicate m 'a') }]
      true none []]]

/-- The chain environment: the document root `/r` holds the 101 files
`chainFile 0` … `chainFile 100`, each including the next (the last include
target is never read). -/
def chainEnv : LoaderEnv :=
  { root := str "/r",
    readFile := fun p =>
      match p with
      | '/' :: 'r' :: '/' :: rest =>
        if rest ≠ [] ∧ rest.all (· = 'a') ∧ rest.length ≤ 101 then some p else none
      | _ => none,
    parseFile := fun _ rel =>
      match rel with
      | '/' :: rest => .ok (chainPage (rest.length + 1))
      | _ => .error (str "no such file") }

/-- The loader state after the chain has visited files `0 … k-1`. -/
def chainSt (k : Nat) : LoaderState :=
  { files := (List.range k).map chainFile, errors := [], macros := [] }

theorem splitOnChar_not_mem (sep : Char) (l : Str) (h : sep ∉ l) :
    splitOnChar sep l = [l] := by
  induction l with
  | nil => rfl
  | cons c cs ih =>
    have hc : c ≠ sep := fun hcc => h (hcc ▸ List.mem_cons_self c cs)
    have hcs : sep ∉ cs := fun hm => h (List.mem_cons_of_mem c hm)
    unfold splitOnChar
    rw [ih hcs]
    simp [hc]

theorem chainFile_inj {i j : Nat} (h : chainFile i = chainFile j) : i = j := by
  unfold chainFile at h
  have := congrArg List.length h
  simpa using this

theorem chain_pname (m : Nat) :
    pathNormalize (pathJoin [str "/r", [], '/' :: List.replicate (m + 1) 'a']) =
      '/' :: 'r' :: '/' :: List.replicate (m + 1) 'a' := by
  have hmem : '/' ∉ List.replicate (m + 1) 'a' := by
    intro h
    have := List.eq_of_mem_replicate h
    simp at this
  have hsplit := splitOnChar_not_mem '/' (List.replicate (m + 1) 'a') hmem
  have hne : List.replicate (m + 1) 'a' ≠ [] := by simp
  have hdot : List.replicate (m + 1) 'a' ≠ ['.'] := by
    cases m with
    | zero => simp [List.replicate]
    | succ m' => intro h; have := congrArg List.length h; simp at this
  have hdots : List.replicate (m + 1) 'a' ≠ ['.', '.'] := by
    cases m with
    | zero => simp [List.replicate]
    | succ m' =>
      intro h
      have h2 := congrArg (List.get? · 0) h
      simp [List.replicate] at h2
  rw [show str "/r" = ['/', 'r'] from rfl]
  generalize hR : List.replicate (m + 1) 'a' = R at hsplit hne hdot hdots ⊢
  simp [pathJoin, pathNormalize, joinSegs, splitOnChar, normSegs, hsplit, hne,
    hdot, hdots]

/-- The state of the chain after the recursion has fully unwound: all 100
readable files visited, and the single depth diagnostic. -/
def chainFinal : LoaderState :=
  { files := (List.range 100).map chainFile,
    errors := [{ type := .error, msg := str "too many nested inclusions" }],
    macros := [] }

theorem chain_parse : ∀ j, j ≤ 100 → ∀ cd,
    parse j (chainFile (100 - j)) cd chainEnv (chainSt (100 - j)) (100 - j) false =
      (if j = 0 then none
       else some [.elem (str "html") [] false (some (str "html")) []],
       chainFinal) := by
  intro j
  induction j with
  | zero =>
    intro _ cd
    simp [parse, MAX_NESTING, chainSt, chainFinal, addError]
  | succ j ih =>
    intro hj cd
    set k := 100 - (j + 1) with hk
    have hkj : k + 1 = 100 - j := by omega
    have hk99 : k ≤ 99 := by omega
    have hg : ¬ (k ≥ MAX_NESTING) := by simp [MAX_NESTING]; omega
    -- the resolution stage
    have hhead : (chainFile k).head? = some '/' := rfl
    have hpn : pathNormalize (pathJoin [chainEnv.root, [], chainFile k]) =
        '/' :: 'r' :: '/' :: List.replicate (k + 1) 'a' := chain_pname k
    have hpre : chainEnv.root.isPrefixOf
        ('/' :: 'r' :: '/' :: List.replicate (k + 1) 'a') = true := by
      simp [chainEnv, str, List.isPrefixOf]
    have hdrop : ('/' :: 'r' :: '/' :: List.replicate (k + 1) 'a').drop
        chainEnv.root.length = chainFile k := by
      simp [chainEnv, str, chainFile]
    have hmem : chainFile k ∉ (chainSt k).files := by
      simp only [chainSt, List.mem_map, not_exists]
      intro x hx
      rcases hx with ⟨hx1, hx2⟩
      exact absurd (chainFile_inj hx2) (Nat.ne_of_lt (List.mem_range.mp hx1))
    have hpush : (chainSt k).files ++ [chainFile k] = (chainSt (k + 1)).files := by
      simp [chainSt, List.range_succ]
    -- the read stage
    have hread : chainEnv.readFile ('/' :: 'r' :: '/' :: List.replicate (k + 1) 'a') =
        some ('/' :: 'r' :: '/' :: List.replicate (k + 1) 'a') := by
      simp only [chainEnv]
      rw [if_pos]
      refine ⟨by simp, by simp, by simp; omega⟩
    have hparse : chainEnv.parseFile ('/' :: 'r' :: '/' :: List.replicate (k + 1) 'a')
        (chainFile k) = .ok (chainPage (k + 2)) := by
      simp [chainEnv, chainFile, chainPage]
    have hdir : pathDirname (chainFile k) = ['/'] := by
      have hmem2 : '/' ∉ List.replicate (k + 1) 'a' := by
        intro h
        have := List.eq_of_mem_replicate h
        simp at this
      have hsplit := splitOnChar_not_mem '/' (List.replicate (k + 1) 'a') hmem2
      rw [show chainFile k = '/' :: List.replicate (k + 1) 'a' from rfl]
      generalize hR : List.replicate (k + 1) 'a' = R at hsplit
      simp [pathDirname, splitOnChar, hsplit]
    have hblank : isBlank (chainFile (k + 1)) = false := by
      simp [isBlank, chainFile, isJsSpace]
    have hst : { chainSt k with files := (chainSt k).files ++ [chainFile k] } =
        chainSt (k + 1) := by
      simp [chainSt, List.range_succ]
    -- one unfolding of parse
    have step1 : parse (j + 1) (chainFile k) cd chainEnv (chainSt k) k false =
        parseRead (fun fn cd' st' n' o' => parse j fn cd' chainEnv st' n' o')
          (chainFile k) ('/' :: 'r' :: '/' :: List.replicate (k + 1) 'a')
          chainEnv (chainSt (k + 1)) k := by
      rw [show parse (j + 1) (chainFile k) cd chainEnv (chainSt k) k false =
          parseResolve (fun fn cd' st' n' o' => parse j fn cd' chainEnv st' n' o')
            (chainFile k) [] chainEnv (chainSt k) k false from by
        simp [parse, hg, hhead]]
      rw [parseResolve, hpn]
      simp only [hpre, not_true, if_false, reduceIte, hdrop, hst]
      rw [if_neg hmem]
    -- the recursive include resolves through the induction hypothesis
    have hinc : parse j (chainFile (k + 1)) ['/'] chainEnv (chainSt (k + 1))
        (k + 1) false =
        (if j = 0 then none
         else some [.elem (str "html") [] false (some (str "html")) []],
         chainFinal) := by
      have := ih (by omega) ['/']
      rwa [show 100 - j = k + 1 from hkj.symm] at this
    have hdec : (decide (str ":include" = str ":import")) = false := by decide
    have hsrc : getJSXAttribute
        [{ name := str "src", value := AttrVal.lit (chainFile (k + 1)) }]
        (str "src") = some (chainFile (k + 1)) := rfl
    -- the include directive of the chain page contributes nothing and ends in
    -- the fully unwound state
    have hpi : processInclude
        (fun fn cd' st' n' o' => parse j fn cd' chainEnv st' n' o')
        (str ":include")
        (JSXNode.elem (str ":include")
          [{ name := str "src", value := AttrVal.lit (chainFile (k + 1)) }]
          true none [])
        [] ['/'] (chainSt (k + 1)) k = (chainFinal, [], []) := by
      unfold processInclude
      simp only [JSXNode.attrs, hsrc, hblank, Bool.false_eq_true, if_false, hdec]
      rw [hinc]
      by_cases hj0 : j = 0 <;>
        simp [hj0, applyIncludedAttributes, getJSXAttributeKeys, trimIncluded,
          JSXNode.children, JSXNode.attrs]
    -- directive processing of the chain page
    have hpage : chainPage (k + 2) =
        [JSXNode.elem (str "html") [] false (some (str "html"))
          [JSXNode.elem (str ":include")
            [{ name := str "src", value := AttrVal.lit (chainFile (k + 1)) }]
            true none []]] := by
      simp [chainPage, chainFile]
    have step3 : processProgram
        (fun fn cd' st' n' o' => parse j fn cd' chainEnv st' n' o')
        (chainPage (k + 2)) ['/'] (chainSt (k + 1)) k =
        ([.elem (str "html") [] false (some (str "html")) []], chainFinal) := by
      rw [hpage]
      unfold processProgram processNode processChildren
      simp only [processChildren, processNode]
      rw [hpi]
      simp [processProgram, show isDirectiveName (str ":include") = true from by decide]
    -- the read/parse tail
    have step2 : parseRead
        (fun fn cd' st' n' o' => parse j fn cd' chainEnv st' n' o')
        (chainFile k) ('/' :: 'r' :: '/' :: List.replicate (k + 1) 'a')
        chainEnv (chainSt (k + 1)) k =
        (some [.elem (str "html") [] false (some (str "html")) []], chainFinal) := by
      unfold parseRead
      rw [hread]
      simp only []
      rw [hparse, hpage]
      simp only []
      rw [hdir, ← hpage, step3]
    rw [step1, step2]
    simp

/-- C2: inclusion nesting never exceeds `MAX_NESTING = 100`: a `parse`
entered with nesting at or beyond the bound emits `too many nested
inclusions` and returns no tree (for any fuel — the guard precedes
everything else); and the linear chain of 101 files each including the next
produces a session whose diagnostics are exactly one such error. -/
theorem claim_C2 :
    (∀ (fuel : Nat) (fname currDir : Str) (env : LoaderEnv) (st : LoaderState)
        (nesting : Nat) (once : Bool), nesting ≥ MAX_NESTING →
      parse fuel fname currDir env st nesting once =
        (none, addError st .error (str "too many nested inclusions"))) ∧
    (load (chainFile 0) chainEnv).errors =
      [{ type := .error, msg := str "too many nested inclusions" }] ∧
    (load (chainFile 0) chainEnv).ast =
      some [.elem (str "html") [] false (some (str "html")) []] := by
  refine ⟨?_, ?_⟩
  · intro fuel fname cd env st n o h
    unfold parse
    rw [if_pos h]
  · have h := chain_parse 100 (by omega) (str ".")
    norm_num at h
    have h0 : chainSt 0 = initState := rfl
    rw [h0] at h
    have hload : load (chainFile 0) chainEnv =
        { ast := some [.elem (str "html") [] false (some (str "html")) []],
          files := chainFinal.files, errors := chainFinal.errors,
          macros := chainFinal.macros } := by
      unfold load
      rw [show MAX_NESTING = 100 from rfl, h]
      simp only []
      rw [expandMacrosProgram_no_macros MACRO_FUEL _ chainFinal rfl]
    rw [hload]
    exact ⟨rfl, rfl⟩

/-- Witness for the universally quantified part of `claim_C2`, discharged at
nesting 100. -/
theorem claim_C2_witness :
    (100 : Nat) ≥ MAX_NESTING ∧
    parse 7 (str "/x") (str ".") envForbidden initState 100 false =
      (none, addError initState .error (str "too many nested inclusions")) :=
  ⟨by decide, claim_C2.1 7 (str "/x") (str ".") envForbidden initState 100 false
    (by decide)⟩

/-! ## Import-once semantics (claim C6) -/

/-- The repeated-`:import` scenario: the same file imported twice. -/
def envImportTwice : LoaderEnv := mkEnv "/www"
  [("/a.html", [mkElem "html" [] [mkElem ":import" [("src", "b.html")] [],
                                  mkElem ":import" [("src", "b.html")] []]]),
   ("/b.html", [mkElem "div" [] [mkText "B"]])]

/-- C6: a file already present in the visited list is skipped by `:import`
(`parse` with `once` returns no tree and leaves the state — files and
diagnostics — untouched), while `:include` of a visited file proceeds to the
read/parse stage unchanged; two `:import` of the same file leave one files
entry, with the second contributing nothing to the tree. -/
theorem claim_C6 :
    (∀ (fuel : Nat) (fname currDir : Str) (env : LoaderEnv) (st : LoaderState)
        (nesting : Nat),
      nesting < MAX_NESTING →
      env.root.isPrefixOf
        (pathNormalize (pathJoin [env.root,
          if fname.head? = some '/' then [] else currDir, fname])) = true →
      (pathNormalize (pathJoin [env.root,
        if fname.head? = some '/' then [] else currDir, fname])).drop
          env.root.length ∈ st.files →
      parse (fuel + 1) fname currDir env st nesting true = (none, st)) ∧
    (∀ (fuel : Nat) (fname currDir : Str) (env : LoaderEnv) (st : LoaderState)
        (nesting : Nat),
      nesting < MAX_NESTING →
      env.root.isPrefixOf
        (pathNormalize (pathJoin [env.root,
          if fname.head? = some '/' then [] else currDir, fname])) = true →
      (pathNormalize (pathJoin [env.root,
        if fname.head? = some '/' then [] else currDir, fname])).drop
          env.root.length ∈ st.files →
      parse (fuel + 1) fname currDir env st nesting false =
        parseRead (fun fn cd st' n o => parse fuel fn cd env st' n o)
          ((pathNormalize (pathJoin [env.root,
            if fname.head? = some '/' then [] else currDir, fname])).drop
              env.root.length)
          (pathNormalize (pathJoin [env.root,
            if fname.head? = some '/' then [] else currDir, fname]))
          env st nesting) ∧
    ((load (str "a.html") envImportTwice).files =
       [str "/a.html", str "/b.html"] ∧
     (load (str "a.html") envImportTwice).ast =
       some [mkElem "html" [] [mkText "B"]] ∧
     (load (str "a.html") envImportTwice).errors = []) := by
  refine ⟨?_, ?_, ?_, ?_, ?_⟩
  · intro fuel fname cd env st n hn hpre hmem
    have hg : ¬ n ≥ MAX_NESTING := by omega
    simp [parse, parseResolve, hg, hpre, hmem]
  · intro fuel fname cd env st n hn hpre hmem
    have hg : ¬ n ≥ MAX_NESTING := by omega
    simp [parse, parseResolve, hg, hpre, hmem]
  · rfl
  · rfl
  · rfl

/-- Witness for the quantified parts of `claim_C6`: the second `:import` of
`/b.html` is skipped with the state untouched, and `:include` under the same
state proceeds to the read stage. -/
theorem claim_C6_witness :
    (0 : Nat) < MAX_NESTING ∧
    envImportTwice.root.isPrefixOf
      (pathNormalize (pathJoin [envImportTwice.root,
        if (str "b.html").head? = some '/' then [] else str "/",
        str "b.html"])) = true ∧
    (pathNormalize (pathJoin [envImportTwice.root,
      if (str "b.html").head? = some '/' then [] else str "/",
      str "b.html"])).drop envImportTwice.root.length ∈
        [str "/b.html"] ∧
    parse 1 (str "b.html") (str "/") envImportTwice
      { files := [str "/b.html"], errors := [], macros := [] } 0 true =
      (none, { files := [str "/b.html"], errors := [], macros := [] }) := by
  refine ⟨by decide, by decide, by decide, ?_⟩
  exact claim_C6.1 0 (str "b.html") (str "/") envImportTwice
    { files := [str "/b.html"], errors := [], macros := [] } 0
    (by decide) (by decide) (by decide)

/-! ## Macro-expansion depth overflow (claim C7) -/

/- Replacing the subtree at a path by the very node found there leaves a
tree unchanged — the shape of the `expandMacros` splice when the stamping
returned the use-site itself. -/
mutual

theorem replaceAt_getAt : ∀ (t : JSXNode) (p : TreePath) (u : JSXNode),
    getAt t p = some u → replaceAt t p u = t
  | t, [], u => by
    intro h
    simp [getAt] at h
    simp [replaceAt, h]
  | .elem nm a sc cn cs, i :: p, u => by
    intro h
    simp only [getAt] at h
    simp only [replaceAt]
    rw [replaceAtL_getAtL cs i p u h]
  | .text v, i :: p, u => by intro h; simp [getAt] at h
  | .exprFragment tk, i :: p, u => by intro h; simp [getAt] at h

theorem replaceAtL_getAtL : ∀ (cs : List JSXNode) (i : Nat) (p : TreePath)
    (u : JSXNode), getAtL cs i p = some u → replaceAtL cs i p u = cs
  | [], i, p, u => by intro h; simp [getAtL] at h
  | c :: cs, 0, p, u => by
    intro h
    simp only [getAtL] at h
    simp only [replaceAtL]
    rw [replaceAt_getAt c p u h]
  | c :: cs, i + 1, p, u => by
    intro h
    simp only [getAtL] at h
    simp only [replaceAtL]
    rw [replaceAtL_getAtL cs i p u h]

end

/-- C7: macro expansion invoked with nesting exceeding `MAX_NESTING = 100`
emits `too many nested macros "<name>"` and returns the use-site node itself
unpopulated, so the splice `replaceAt` puts back exactly what was there and
the tree is unchanged. -/
theorem claim_C7 :
    (∀ (use : JSXNode) (md : MacroDefinition) (st : LoaderState) (rm : Bool)
        (nesting : Nat), nesting > MAX_NESTING →
      expandMacro use md st rm nesting =
        (use, addError st .error
          (str "too many nested macros \"" ++ md.name ++ str "\""))) ∧
    (∀ (t : JSXNode) (p : TreePath) (u : JSXNode),
      getAt t p = some u → replaceAt t p u = t) := by
  constructor
  · intro use md st rm n h
    unfold expandMacro
    rw [if_pos h]
  · exact replaceAt_getAt

/-- Witness for `claim_C7` at a concrete overflowing expansion. -/
theorem claim_C7_witness :
    (101 : Nat) > MAX_NESTING ∧
    expandMacro (mkElem "my-a" [] []) (.mk (str "my-a") (mkElem "div" [] [])
        (str "div") none) initState true 101 =
      (mkElem "my-a" [] [], addError initState .error
        (str "too many nested macros \"" ++
          (MacroDefinition.mk (str "my-a") (mkElem "div" [] []) (str "div")
            none).name ++ str "\"")) ∧
    getAt (mkElem "html" [] [mkElem "my-a" [] []]) [0] =
      some (mkElem "my-a" [] []) ∧
    replaceAt (mkElem "html" [] [mkElem "my-a" [] []]) [0]
      (mkElem "my-a" [] []) = mkElem "html" [] [mkElem "my-a" [] []] := by
  refine ⟨by decide, ?_, by rfl, ?_⟩
  · exact claim_C7.1 (mkElem "my-a" [] []) (.mk (str "my-a") (mkElem "div" [] [])
      (str "div") none) initState true 101 (by decide)
  · exact claim_C7.2 (mkElem "html" [] [mkElem "my-a" [] []]) [0]
      (mkElem "my-a" [] []) (by rfl)

/-! ## Macro name validation (claim C3) -/

/-- A `:define` whose tag has no dash. -/
def envDashless : LoaderEnv := mkEnv "/www"
  [("/a.html", [mkElem "html" []
     [mkElem ":define" [("tag", "foo")] [mkElem "div" [] [mkText "D"]]]])]

/-- C3 (code evaluation): the pattern `^([\-\w]+)(\:[\-\w]+)?$` accepts the
dashless name `foo`, and loading a page with `<:define tag="foo">…/:define>`
registers the macro `foo` with *no* diagnostic — the loader does not enforce
the at-least-one-dash rule its own warning text alludes to. -/
theorem claim_C3 :
    tagMatch (str "foo") = some (str "foo", none) ∧
    (load (str "a.html") envDashless).errors = [] ∧
    (load (str "a.html") envDashless).macros =
      [(str "foo", .mk (str "foo")
        (.elem (str "div") [] false (some (str "div"))
          [mkElem "div" [] [mkText "D"]])
        (str "div") none)] := by
  refine ⟨by decide, rfl, rfl⟩

/-! ## Macro redefinition (claim C10) -/

/-- Two `:define` for `my-a` followed by a use-site. -/
def envRedefine : LoaderEnv := mkEnv "/www"
  [("/a.html", [mkElem "html" []
     [mkElem ":define" [("tag", "my-a")] [mkElem "div" [] [mkText "first"]],
      mkElem ":define" [("tag", "my-a")] [mkElem "span" [] [mkText "second"]],
      mkElem "my-a" [] []]])]

/-- C10: registry assignment overwrites — after `setMacro` the looked-up
descriptor for the name is the new one while other names are untouched; and
in a load with two `:define` for `my-a` the registry resolves `my-a` to the
later descriptor and the use-site is stamped from the later body. -/
theorem claim_C10 :
    (∀ (st : LoaderState) (k : Str) (d : MacroDefinition),
      lookupMacro (setMacro st k d) k = some d) ∧
    (∀ (st : LoaderState) (k k' : Str) (d : MacroDefinition), k' ≠ k →
      lookupMacro (setMacro st k d) k' = lookupMacro st k') ∧
    lookupMacro
      { files := (load (str "a.html") envRedefine).files,
        errors := (load (str "a.html") envRedefine).errors,
        macros := (load (str "a.html") envRedefine).macros }
      (str "my-a") =
      some (.mk (str "my-a")
        (.elem (str "div") [] false (some (str "div"))
          [mkElem "span" [] [mkText "second"]])
        (str "div") none) ∧
    (load (str "a.html") envRedefine).ast =
      some [mkElem "html" []
        [.elem (str "div") [] false (some (str "div"))
          [mkElem "span" [] [mkText "second"]]]] := by
  refine ⟨?_, ?_, rfl, rfl⟩
  · intro st k d
    simp [lookupMacro, setMacro]
  · intro st k k' d h
    simp only [lookupMacro, setMacro, List.find?]
    rw [show (decide ((k, d).1 = k')) = false from by simp [Ne.symm h]]

/-- Witness for the quantified parts of `claim_C10` at concrete registry
entries. -/
theorem claim_C10_witness :
    lookupMacro (setMacro (setMacro initState (str "my-a")
        (.mk (str "my-a") (mkElem "div" [] []) (str "div") none))
      (str "my-a")
      (.mk (str "my-a") (mkElem "span" [] []) (str "span") none))
      (str "my-a") =
      some (.mk (str "my-a") (mkElem "span" [] []) (str "span") none) ∧
    (str "my-b") ≠ (str "my-a") ∧
    lookupMacro (setMacro (setMacro initState (str "my-b")
        (.mk (str "my-b") (mkElem "div" [] []) (str "div") none))
      (str "my-a")
      (.mk (str "my-a") (mkElem "span" [] []) (str "span") none))
      (str "my-b") =
      lookupMacro (setMacro initState (str "my-b")
        (.mk (str "my-b") (mkElem "div" [] []) (str "div") none))
      (str "my-b") := by
  refine ⟨?_, by decide, ?_⟩
  · exact claim_C10.1 _ (str "my-a") _
  · exact claim_C10.2.1 _ (str "my-a") (str "my-b") _ (by decide)

/-! ## Included-attribute propagation (claim C5) -/

/-- The attribute-propagation scenario: the `class` attribute sits on the
`:include` directive, not on the parent. -/
def envAttrProp : LoaderEnv := mkEnv "/www"
  [("/a.html", [mkElem "html" []
     [mkElem ":include" [("src", "b.html"), ("class", "y")] []]]),
   ("/b.html", [mkElem "root" [("id", "r")] [mkText "x"]])]

theorem find_attr_self (attrs : List JSXAttr)
    (hnd : (attrs.map JSXAttr.name).Nodup) :
    ∀ a ∈ attrs, getJSXAttributeNode attrs a.name = some a := by
  induction attrs with
  | nil => simp
  | cons x rest ih =>
    intro a ha
    rcases List.mem_cons.mp ha with rfl | ha'
    · simp [getJSXAttributeNode, List.find?]
    · have hx : ¬ (x.name = a.name) := by
        intro he
        have hmm : a.name ∈ rest.map JSXAttr.name := List.mem_map_of_mem _ ha'
        rw [List.map_cons] at hnd
        exact (List.nodup_cons.mp hnd).1 (he ▸ hmm)
      have hrec := ih (by rw [List.map_cons] at hnd; exact (List.nodup_cons.mp hnd).2) a ha'
      simp only [getJSXAttributeNode, List.find?, decide_eq_true_eq] at hrec ⊢
      rw [show (decide (x.name = a.name)) = false from by simp [hx]]
      exact hrec

theorem applyIncluded_fold (existing : List Str) (full : List JSXAttr) :
    ∀ (attrs : List JSXAttr) (acc : List JSXAttr),
      (∀ a ∈ attrs, getJSXAttributeNode full a.name = some a) →
      (attrs.map JSXAttr.name).foldl (fun acc key =>
        if key ∈ existing then acc
        else match getJSXAttributeNode full key with
          | some a => acc ++ [a]
          | none => acc) acc =
      acc ++ attrs.filter (fun a => a.name ∉ existing) := by
  intro attrs
  induction attrs with
  | nil => intro acc _; simp
  | cons x rest ih =>
    intro acc h
    simp only [List.map_cons, List.foldl_cons]
    by_cases hx : x.name ∈ existing
    · rw [if_pos hx, ih acc (fun a ha => h a (List.mem_cons_of_mem x ha))]
      simp [List.filter_cons, hx]
    · rw [if_neg hx, h x (List.mem_cons_self x rest),
        ih (acc ++ [x]) (fun a ha => h a (List.mem_cons_of_mem x ha))]
      simp [List.filter_cons, hx]

/-- C5 counterexample: for
`<html><:include src="b.html" class="y"/></html>` including
`<root id="r">x</root>`, the resulting `<html>` carries `id="r"` only — the
`class="y"` written on the directive is *not* on the result, contradicting
the claim that `<html>` carries both. -/
theorem claim_C5_counterexample :
    (load (str "a.html") envAttrProp).ast =
      some [JSXNode.elem (str "html")
        [{ name := str "id", value := .lit (str "r") }] false
        (some (str "html")) [mkText "x"]] ∧
    getJSXAttribute [{ name := str "id", value := AttrVal.lit (str "r") }]
      (str "class") = none :=
  ⟨rfl, rfl⟩

/-- C5 (amended): after an `:include`, every attribute of the included
file's root element whose name does not already appear on the referring
parent element's opening tag is appended to it (parent attributes win on
conflict); in the concrete page, `<html>` gains `id="r"` but does not carry
`class="y"`, because that attribute sits on the directive element, which is
removed with the directive. -/
theorem claim_C5 :
    (∀ (parentAttrs : List JSXAttr) (root : JSXNode),
      (root.attrs.map JSXAttr.name).Nodup →
      applyIncludedAttributes parentAttrs root =
        parentAttrs ++ root.attrs.filter
          (fun a => a.name ∉ getJSXAttributeKeys parentAttrs)) ∧
    (load (str "a.html") envAttrProp).ast =
      some [JSXNode.elem (str "html")
        [{ name := str "id", value := .lit (str "r") }] false
        (some (str "html")) [mkText "x"]] ∧
    (load (str "a.html") envAttrProp).errors = [] := by
  refine ⟨?_, rfl, rfl⟩
  intro parentAttrs root hnd
  unfold applyIncludedAttributes
  rw [show getJSXAttributeKeys root.attrs = root.attrs.map JSXAttr.name from rfl]
  exact applyIncluded_fold (getJSXAttributeKeys parentAttrs) root.attrs
    root.attrs parentAttrs (find_attr_self root.attrs hnd)

/-- Witness for the quantified part of `claim_C5`: merging
`<root id="r" class="z">` onto a parent carrying `class="y"` appends `id`
and keeps the parent's `class`. -/
theorem claim_C5_witness :
    (((JSXNode.elem (str "root")
        [{ name := str "id", value := AttrVal.lit (str "r") },
         { name := str "class", value := AttrVal.lit (str "z") }] false
        (some (str "root")) []).attrs.map JSXAttr.name).Nodup ∧
    applyIncludedAttributes
      [{ name := str "class", value := AttrVal.lit (str "y") }]
      (JSXNode.elem (str "root")
        [{ name := str "id", value := AttrVal.lit (str "r") },
         { name := str "class", value := AttrVal.lit (str "z") }] false
        (some (str "root")) []) =
      [{ name := str "class", value := AttrVal.lit (str "y") },
       { name := str "id", value := AttrVal.lit (str "r") }]) := by
  constructor
  · decide
  · rw [claim_C5.1 [{ name := str "class", value := AttrVal.lit (str "y") }]
      (JSXNode.elem (str "root")
        [{ name := str "id", value := AttrVal.lit (str "r") },
         { name := str "class", value := AttrVal.lit (str "z") }] false
        (some (str "root")) []) (by decide)]
    rfl

/-! ## Slot routing (claim C4) -/

/-- Strip a leading prefix from a path. -/
def stripPre : TreePath → TreePath → Option TreePath
  | [], p => some p
  | _ :: _, [] => none
  | a :: q, b :: p => if a = b then stripPre q p else none

/-- The slot-map entries lying strictly below the node at `q`, re-keyed by
their path relative to `q`. -/
def relSlots (q : TreePath) (slots : SlotMap) : SlotMap :=
  slots.filterMap (fun nmp => (stripPre q nmp.2).bind
    (fun d => if d = [] then none else some (nmp.1, d)))

/-- The edit batch of `populateMacro`: one insertion of the routed block per
collected slot, keeping or dissolving the slot element. -/
def slotOps (src : JSXNode) (rm : Bool) (slots : SlotMap) : List SlotOp :=
  slots.map (fun nmp =>
    { path := nmp.2, before := routedChildren src.children nmp.1,
      action := if rm then SlotAction.dissolve else SlotAction.keep })

/- Spec-side stamping (the specification wording, for claim C4): walk the
body; a position recorded in the slot map as the slot named `n` receives
the use-site children routed to `n` as immediately preceding siblings in
its parent's child list, and the slot element itself is then kept
(slot-keeping mode) or replaced by its own recursively stamped children
(dissolve mode); every other node is kept in place. -/
mutual

def stampSpecN (slots : SlotMap) (src : JSXNode) (rm : Bool) (q : TreePath) :
    JSXNode → JSXNode
  | .elem nm a sc cn cs => .elem nm a sc cn (stampSpecL slots src rm q 0 cs)
  | n => n

def stampSpecL (slots : SlotMap) (src : JSXNode) (rm : Bool) (q : TreePath)
    (j : Nat) : List JSXNode → List JSXNode
  | [] => []
  | c :: rest =>
    let c' := stampSpecN slots src rm (q ++ [j]) c
    (match slots.find? (fun nmp => nmp.2 = q ++ [j]) with
     | some nmp =>
       routedChildren src.children nmp.1 ++ (if rm then c'.children else [c'])
     | none => [c']) ++
    stampSpecL slots src rm q (j + 1) rest

end

theorem stripPre_append (q r : TreePath) : stripPre q (q ++ r) = some r := by
  induction q with
  | nil => rfl
  | cons a q ih => simp [stripPre, ih]

theorem stripPre_eq_some {q x d : TreePath} (h : stripPre q x = some d) :
    x = q ++ d := by
  induction q generalizing x with
  | nil =>
    injection h with h
  | cons a q ih =>
    cases x with
    | nil => exact Option.noConfusion h
    | cons b p =>
      unfold stripPre at h
      split at h
      · rename_i hab
        subst hab
        rw [ih h]
        rfl
      · exact Option.noConfusion h

theorem stripPre_snoc (q : TreePath) (j : Nat) :
    ∀ x, (stripPre q x).bind (fun d =>
        match d with
        | i :: p => if i = j then some p else none
        | [] => none) = stripPre (q ++ [j]) x := by
  induction q with
  | nil =>
    intro x
    cases x with
    | nil => rfl
    | cons i p =>
      show (if i = j then some p else none) =
        (if j = i then stripPre [] p else none)
      by_cases h : i = j
      · subst h
        rw [if_pos rfl, if_pos rfl]
        rfl
      · rw [if_neg h, if_neg (fun hh => h hh.symm)]
  | cons a q ih =>
    intro x
    cases x with
    | nil => rfl
    | cons b p =>
      by_cases h : a = b
      · simp only [stripPre, List.cons_append, if_pos h]
        exact ih p
      · simp only [stripPre, List.cons_append, if_neg h]
        rfl

/-- Restricting the edit batch to the children of child `j` (the `subOps`
filter of `applyOpsL`) is restriction of the slot map below position `j`. -/
theorem subOps_relSlots (src : JSXNode) (rm : Bool) (slots : SlotMap)
    (q : TreePath) (j : Nat) :
    (slotOps src rm (relSlots q slots)).filterMap (fun o =>
      match o.path with
      | i :: p => if i = j ∧ p ≠ [] then some { o with path := p } else none
      | [] => none) =
    slotOps src rm (relSlots (q ++ [j]) slots) := by
  unfold slotOps relSlots
  rw [List.map_filterMap, List.filterMap_filterMap, List.map_filterMap]
  congr 1
  funext nmp
  rw [← stripPre_snoc q j nmp.2]
  rcases hs : stripPre q nmp.2 with _ | d
  · rfl
  · rcases d with _ | ⟨i, p⟩
    · rfl
    · simp only [Option.bind, Option.map]
      by_cases hij : i = j
      · subst hij
        by_cases hp : p = []
        · subst hp
          simp
        · simp [hp]
      · simp [hij]

/-- The edit found by `applyOpsL` at position `j` of the parent at `q` is
the slot-map entry at path `q ++ [j]`. -/
theorem find_relSlots (src : JSXNode) (rm : Bool) (q : TreePath) (j : Nat) :
    ∀ slots : SlotMap,
      (slotOps src rm (relSlots q slots)).find? (fun o => o.path = [j]) =
        (slots.find? (fun nmp => nmp.2 = q ++ [j])).map (fun nmp =>
          { path := [j], before := routedChildren src.children nmp.1,
            action := if rm then SlotAction.dissolve else SlotAction.keep }) := by
  intro slots
  induction slots with
  | nil => rfl
  | cons nmp rest ih =>
    simp only [slotOps, relSlots, List.map_filterMap] at ih
    unfold slotOps relSlots
    rw [List.map_filterMap, List.filterMap_cons]
    rcases hs : stripPre q nmp.2 with _ | d
    · simp only [Option.none_bind, Option.map_none']
      rw [List.find?_cons_of_neg]
      · exact ih
      · simp only [decide_eq_true_eq]
        intro h
        rw [h, stripPre_append] at hs
        exact Option.noConfusion hs
    · rcases d with _ | ⟨i, p⟩
      · simp only [Option.some_bind, if_true, Option.map_none']
        rw [List.find?_cons_of_neg]
        · exact ih
        · simp only [decide_eq_true_eq]
          intro h
          have h2 := stripPre_eq_some hs
          rw [h] at h2
          have h3 : ([j] : TreePath) = [] := List.append_cancel_left h2
          exact List.noConfusion h3
      · simp only [Option.some_bind]
        rw [if_neg (fun hh => List.noConfusion hh)]
        simp only [Option.map_some']
        by_cases hc : (i :: p : TreePath) = [j]
        · rw [List.find?_cons_of_pos, List.find?_cons_of_pos]
          · simp only [Option.map_some']
            rw [hc]
          · simp only [decide_eq_true_eq]
            rw [stripPre_eq_some hs, hc]
          · simp only [decide_eq_true_eq]
            exact hc
        · rw [List.find?_cons_of_neg, List.find?_cons_of_neg]
          · exact ih
          · simp only [decide_eq_true_eq]
            intro h
            rw [stripPre_eq_some hs] at h
            exact hc (List.append_cancel_left h)
          · simp only [decide_eq_true_eq]
            exact hc

/- The batch of slot edits realizes the spec-side stamping: at every
position the routed block lands immediately before the slot, which is then
kept or dissolved, and all other nodes keep their places. -/
mutual

theorem applyOps_stampN (slots : SlotMap) (src : JSXNode) (rm : Bool) :
    ∀ (q : TreePath) (node : JSXNode),
      applyOpsN (slotOps src rm (relSlots q slots)) node =
        stampSpecN slots src rm q node
  | q, .elem nm a sc cn cs => by
    unfold applyOpsN stampSpecN
    rw [applyOps_stampL slots src rm q 0 cs]
  | q, .text v => rfl
  | q, .exprFragment t => rfl

theorem applyOps_stampL (slots : SlotMap) (src : JSXNode) (rm : Bool) :
    ∀ (q : TreePath) (j : Nat) (cs : List JSXNode),
      applyOpsL (slotOps src rm (relSlots q slots)) j cs =
        stampSpecL slots src rm q j cs
  | q, j, [] => rfl
  | q, j, c :: rest => by
    unfold applyOpsL stampSpecL
    simp only []
    rw [subOps_relSlots src rm slots q j,
        applyOps_stampN slots src rm (q ++ [j]) c,
        find_relSlots src rm q j,
        applyOps_stampL slots src rm q (j + 1) rest]
    rcases hf : slots.find? (fun nmp => nmp.2 = q ++ [j]) with _ | nmp
    · rw [hf]
      rfl
    · rw [hf]
      cases rm with
      | false => rfl
      | true => rfl

end

/-- Edits whose path is empty never fire: the `subOps` filter of
`applyOpsL` discards them. -/
theorem subOps_filter_nil (ops : List SlotOp) (j : Nat) :
    (ops.filter (fun o => !o.path.isEmpty)).filterMap (fun o =>
      match o.path with
      | i :: p => if i = j ∧ p ≠ [] then some { o with path := p } else none
      | [] => none) =
    ops.filterMap (fun o =>
      match o.path with
      | i :: p => if i = j ∧ p ≠ [] then some { o with path := p } else none
      | [] => none) := by
  induction ops with
  | nil => rfl
  | cons o rest ih =>
    rcases hp : o.path with _ | ⟨i, p⟩
    · rw [List.filter_cons_of_neg (by simp [hp])]
      simp only [List.filterMap_cons, hp]
      exact ih
    · rw [List.filter_cons_of_pos (by simp [hp])]
      simp only [List.filterMap_cons, hp]
      by_cases hc : i = j ∧ p ≠ []
      · rw [if_pos hc, ih]
      · rw [if_neg hc]
        exact ih

/-- Edits whose path is empty never fire: the positional `find?` of
`applyOpsL` skips them. -/
theorem find_filter_nil (ops : List SlotOp) (j : Nat) :
    (ops.filter (fun o => !o.path.isEmpty)).find? (fun o => o.path = [j]) =
      ops.find? (fun o => o.path = [j]) := by
  induction ops with
  | nil => rfl
  | cons o rest ih =>
    rcases hp : o.path with _ | ⟨i, p⟩
    · rw [List.filter_cons_of_neg (by simp [hp])]
      rw [List.find?_cons_of_neg]
      · exact ih
      · simp [hp]
    · rw [List.filter_cons_of_pos (by simp [hp])]
      by_cases hc : o.path = [j]
      · rw [List.find?_cons_of_pos, List.find?_cons_of_pos]
        · simp [hc]
        · simp [hc]
      · rw [List.find?_cons_of_neg, List.find?_cons_of_neg]
        · exact ih
        · simp [hc]
        · simp [hc]

/-- Edits whose path is empty leave every child list unchanged. -/
theorem applyOpsL_filter (ops : List SlotOp) :
    ∀ (j : Nat) (cs : List JSXNode),
      applyOpsL (ops.filter (fun o => !o.path.isEmpty)) j cs =
        applyOpsL ops j cs := by
  intro j cs
  induction cs generalizing j with
  | nil => rfl
  | cons c rest ih =>
    unfold applyOpsL
    simp only []
    rw [subOps_filter_nil, find_filter_nil, ih (j + 1)]

/-- Edits whose path is empty leave every tree unchanged. -/
theorem applyOpsN_filter (ops : List SlotOp) (n : JSXNode) :
    applyOpsN (ops.filter (fun o => !o.path.isEmpty)) n = applyOpsN ops n := by
  cases n with
  | elem nm a sc cn cs =>
    unfold applyOpsN
    rw [applyOpsL_filter]
  | text v => rfl
  | exprFragment t => rfl

/-- At the root, restricting the slot map keeps exactly the edits with a
non-empty path. -/
theorem slotOps_relSlots_nil (src : JSXNode) (rm : Bool) :
    ∀ slots : SlotMap,
      slotOps src rm (relSlots [] slots) =
        (slotOps src rm slots).filter (fun o => !o.path.isEmpty) := by
  intro slots
  induction slots with
  | nil => rfl
  | cons nmp rest ih =>
    simp only [slotOps, relSlots, List.filterMap_cons, List.map_cons] at ih ⊢
    rcases hp : nmp.2 with _ | ⟨i, p⟩
    · rw [List.filter_cons_of_neg]
      · exact ih
      · simp
    · rw [List.filter_cons_of_pos]
      · exact congrArg (List.cons _) ih
      · simp

/-- `populateMacro` is the spec-side stamping of the collected slot map over
the merged body: every collected slot receives its routed block immediately
before itself and is kept or dissolved in place. -/
theorem populateMacro_stamp (src dst : JSXNode) (st : LoaderState) (rm : Bool) :
    (populateMacro src dst st rm).1 =
      stampSpecN
        (collectSlots (setAttrs dst (mergeAttrs src.attrs dst.attrs)) st none).1
        src rm []
        (collectSlots (setAttrs dst (mergeAttrs src.attrs dst.attrs))
          st none).2.1 := by
  unfold populateMacro
  simp only []
  rcases hcs : collectSlots (setAttrs dst (mergeAttrs src.attrs dst.attrs))
    st none with ⟨slots, body, st2⟩
  simp only [hcs]
  have hops : slots.map (fun nmp =>
      ({ path := nmp.2, before := routedChildren src.children nmp.1,
         action := if rm then SlotAction.dissolve else SlotAction.keep } :
        SlotOp)) = slotOps src rm slots := rfl
  have hkey : applyOpsN (slotOps src rm slots) body =
      stampSpecN slots src rm [] body := by
    rw [← applyOpsN_filter, ← slotOps_relSlots_nil,
      applyOps_stampN slots src rm [] body]
  cases rm with
  | false =>
    simp only [hops]
    exact hkey
  | true =>
    simp only [hops]
    exact hkey

/-- A use-site child whose target slot is not among the collected slots of
the body contributes nothing to the stamping: dropping it changes neither
the tree, nor the slot map, nor the diagnostics. -/
theorem populateMacro_drop (snm : Str) (sattrs : List JSXAttr) (ssc : Bool)
    (scn : Option Str) (cs1 cs2 : List JSXNode) (c dst : JSXNode)
    (st : LoaderState) (rm : Bool)
    (h : ∀ nmp ∈ (collectSlots (setAttrs dst (mergeAttrs sattrs dst.attrs))
        st none).1, slotTargetName c ≠ nmp.1) :
    populateMacro (.elem snm sattrs ssc scn (cs1 ++ c :: cs2)) dst st rm =
      populateMacro (.elem snm sattrs ssc scn (cs1 ++ cs2)) dst st rm := by
  unfold populateMacro
  simp only []
  rw [show (JSXNode.elem snm sattrs ssc scn (cs1 ++ c :: cs2)).attrs =
        sattrs from rfl,
      show (JSXNode.elem snm sattrs ssc scn (cs1 ++ cs2)).attrs =
        sattrs from rfl,
      show (JSXNode.elem snm sattrs ssc scn (cs1 ++ c :: cs2)).children =
        cs1 ++ c :: cs2 from rfl,
      show (JSXNode.elem snm sattrs ssc scn (cs1 ++ cs2)).children =
        cs1 ++ cs2 from rfl]
  have hops : List.map (fun nmp =>
      ({ path := nmp.2, before := routedChildren (cs1 ++ c :: cs2) nmp.1,
         action := if rm then SlotAction.dissolve else SlotAction.keep } :
        SlotOp))
      (collectSlots (setAttrs dst (mergeAttrs sattrs dst.attrs)) st none).1 =
      List.map (fun nmp =>
      ({ path := nmp.2, before := routedChildren (cs1 ++ cs2) nmp.1,
         action := if rm then SlotAction.dissolve else SlotAction.keep } :
        SlotOp))
      (collectSlots (setAttrs dst (mergeAttrs sattrs dst.attrs)) st none).1 := by
    refine List.map_congr_left ?_
    intro nmp hm
    have hne := h nmp hm
    have hroute : routedChildren (cs1 ++ c :: cs2) nmp.1 =
        routedChildren (cs1 ++ cs2) nmp.1 := by
      unfold routedChildren
      rw [List.filter_append, List.filter_append, List.filter_cons,
        if_neg (by simpa using hne)]
    rw [hroute]
  rw [hops]

/-- A childless `:slot` element named `n`. -/
def slotElem (n : Str) : JSXNode :=
  .elem (str ":slot") [{ name := str "name", value := .lit n }] false
    (some (str ":slot")) []

/-- C4: during stamping, a use-site child routes to the slot named by its
`name` attribute when it is an element carrying a non-empty one, and to
`default` otherwise; the children routed to one slot are exactly the
use-site children targeting it, in use-site order (a sublist, so relative
order is preserved); for every use-site, body, state and mode,
`populateMacro` is the spec-side stamping `stampSpecN` of the collected
slot map, which places each routed block immediately before its target slot
element in the slot's parent's child list and then keeps or dissolves the
slot there; and a use-site child whose target slot does not exist among the
collected slots is silently dropped: removing it changes nothing — tree,
slot map or diagnostics. -/
theorem claim_C4 :
    (∀ (nm : Str) (attrs : List JSXAttr) (sc : Bool) (cn : Option Str)
        (cs : List JSXNode) (s : Str),
      getJSXAttribute attrs (str "name") = some s → s ≠ [] →
      slotTargetName (.elem nm attrs sc cn cs) = s) ∧
    (∀ (nm : Str) (attrs : List JSXAttr) (sc : Bool) (cn : Option Str)
        (cs : List JSXNode),
      getJSXAttribute attrs (str "name") = none →
      slotTargetName (.elem nm attrs sc cn cs) = str "default") ∧
    (∀ n : JSXNode, n.isElem = false → slotTargetName n = str "default") ∧
    (∀ (cs : List JSXNode) (nm : Str),
      List.Sublist (routedChildren cs nm) cs) ∧
    (∀ (src dst : JSXNode) (st : LoaderState) (rm : Bool),
      (populateMacro src dst st rm).1 =
        stampSpecN
          (collectSlots (setAttrs dst (mergeAttrs src.attrs dst.attrs))
            st none).1
          src rm []
          (collectSlots (setAttrs dst (mergeAttrs src.attrs dst.attrs))
            st none).2.1) ∧
    (∀ (snm : Str) (sattrs : List JSXAttr) (ssc : Bool) (scn : Option Str)
        (cs1 cs2 : List JSXNode) (c dst : JSXNode) (st : LoaderState)
        (rm : Bool),
      (∀ nmp ∈ (collectSlots (setAttrs dst (mergeAttrs sattrs dst.attrs))
          st none).1, slotTargetName c ≠ nmp.1) →
      populateMacro (.elem snm sattrs ssc scn (cs1 ++ c :: cs2)) dst st rm =
        populateMacro (.elem snm sattrs ssc scn (cs1 ++ cs2)) dst st rm) := by
  refine ⟨?_, ?_, ?_, ?_, ?_, ?_⟩
  · intro nm attrs sc cn cs s hs hne
    simp [slotTargetName, hs, hne]
  · intro nm attrs sc cn cs hs
    simp [slotTargetName, hs]
  · intro n hn
    cases n with
    | elem nm a sc cn cs => simp [JSXNode.isElem] at hn
    | text v => rfl
    | exprFragment t => rfl
  · intro cs nm
    exact List.filter_sublist cs
  · intro src dst st rm
    exact populateMacro_stamp src dst st rm
  · intro snm sattrs ssc scn cs1 cs2 c dst st rm h
    exact populateMacro_drop snm sattrs ssc scn cs1 cs2 c dst st rm h

/-- Witness for `claim_C4` at a concrete macro body and use-site: the
header-named child routes to the `hdr` slot; a nameless element and a text
child route to `default`; stamping a two-slot body in dissolve mode places
the routed blocks exactly where their slots stood; and appending a child
naming a non-existent slot leaves the whole stamping unchanged. -/
theorem claim_C4_witness :
    slotTargetName (.elem (str "span")
      [{ name := str "name", value := AttrVal.lit (str "hdr") }] false
      (some (str "span")) [mkText "H"]) = str "hdr" ∧
    slotTargetName (.elem (str "em") [] false (some (str "em")) []) =
      str "default" ∧
    slotTargetName (mkText "B") = str "default" ∧
    (populateMacro
        (mkElem "my-card" []
          [.elem (str "span")
            [{ name := str "name", value := AttrVal.lit (str "hdr") }] false
            (some (str "span")) [mkText "H"],
           mkText "B"])
        (.elem (str "div") [] false (some (str "div"))
          [slotElem (str "hdr"), slotElem (str "default")])
        initState true).1 =
      .elem (str "div") [] false (some (str "div"))
        [.elem (str "span")
          [{ name := str "name", value := AttrVal.lit (str "hdr") }] false
          (some (str "span")) [mkText "H"],
         mkText "B"] ∧
    populateMacro
        (.elem (str "my-card") [] false (some (str "my-card"))
          ([.elem (str "span")
              [{ name := str "name", value := AttrVal.lit (str "hdr") }] false
              (some (str "span")) [mkText "H"],
            mkText "B"] ++
           .elem (str "b")
              [{ name := str "name", value := AttrVal.lit (str "nosuch") }]
              false (some (str "b")) [mkText "X"] :: []))
        (.elem (str "div") [] false (some (str "div"))
          [slotElem (str "hdr"), slotElem (str "default")])
        initState true =
      populateMacro
        (.elem (str "my-card") [] false (some (str "my-card"))
          ([.elem (str "span")
              [{ name := str "name", value := AttrVal.lit (str "hdr") }] false
              (some (str "span")) [mkText "H"],
            mkText "B"] ++ []))
        (.elem (str "div") [] false (some (str "div"))
          [slotElem (str "hdr"), slotElem (str "default")])
        initState true := by
  refine ⟨?_, ?_, ?_, ?_, ?_⟩
  · exact claim_C4.1 (str "span")
      [{ name := str "name", value := AttrVal.lit (str "hdr") }] false
      (some (str "span")) [mkText "H"] (str "hdr") rfl (by decide)
  · exact claim_C4.2.1 (str "em") [] false (some (str "em")) [] rfl
  · exact claim_C4.2.2.1 (mkText "B") rfl
  · rw [claim_C4.2.2.2.2.1
      (mkElem "my-card" []
        [.elem (str "span")
          [{ name := str "name", value := AttrVal.lit (str "hdr") }] false
          (some (str "span")) [mkText "H"],
         mkText "B"])
      (.elem (str "div") [] false (some (str "div"))
        [slotElem (str "hdr"), slotElem (str "default")]) initState true]
    rfl
  · exact claim_C4.2.2.2.2.2 (str "my-card") [] false (some (str "my-card"))
      [.elem (str "span")
        [{ name := str "name", value := AttrVal.lit (str "hdr") }] false
        (some (str "span")) [mkText "H"],
       mkText "B"] []
      (.elem (str "b")
        [{ name := str "name", value := AttrVal.lit (str "nosuch") }]
        false (some (str "b")) [mkText "X"])
      (.elem (str "div") [] false (some (str "div"))
        [slotElem (str "hdr"), slotElem (str "default")])
      initState true (by decide)

/-! ## The no-directive invariant of final trees (claim C8)

A *good child* is a node that may legally sit below an element in a
processed tree: any non-element, and any element that is either not a
directive or is a `:slot`.  A *good tree* (`goodN`) is one all of whose
strict descendants are good children.  Directive processing establishes
goodness, and macro expansion preserves it; the root of a top-level tree is
itself unconstrained (a directive at a program's top level has no element
parent and is never collected). -/

/-- A node legally sitting below an element of a processed tree: not a
directive element, unless a `:slot`. -/
def goodChild : JSXNode → Bool
  | .elem nm _ _ _ _ => !(isDirectiveName nm) || (nm = str ":slot")
  | _ => true

/- Every strict descendant with an element parent is a good child. -/
mutual

def goodN : JSXNode → Bool
  | .elem _ _ _ _ cs => goodL cs
  | _ => true

def goodL : List JSXNode → Bool
  | [] => true
  | c :: rest => goodChild c && goodN c && goodL rest

end

theorem goodL_iff (cs : List JSXNode) :
    goodL cs = true ↔ ∀ c ∈ cs, goodChild c = true ∧ goodN c = true := by
  induction cs with
  | nil => simp [goodL]
  | cons c rest ih =>
    simp only [goodL, Bool.and_eq_true, ih, List.mem_cons]
    constructor
    · rintro ⟨⟨h1, h2⟩, h3⟩ x hx
      rcases hx with rfl | hx
      · exact ⟨h1, h2⟩
      · exact h3 x hx
    · intro h
      exact ⟨⟨(h c (Or.inl rfl)).1, (h c (Or.inl rfl)).2⟩,
        fun x hx => h x (Or.inr hx)⟩

theorem goodN_children {n : JSXNode} (h : goodN n = true) :
    ∀ c ∈ n.children, goodChild c = true ∧ goodN c = true := by
  cases n with
  | elem nm a sc cn cs =>
    simp only [goodN] at h
    simpa [JSXNode.children] using (goodL_iff cs).mp h
  | text v => simp [JSXNode.children]
  | exprFragment t => simp [JSXNode.children]

theorem goodChild_applyOpsN (ops : List SlotOp) (n : JSXNode) :
    goodChild (applyOpsN ops n) = goodChild n := by
  cases n <;> rfl

/- `applyOpsN` preserves goodness when every inserted node is a good
child with a good subtree. -/
mutual

theorem applyOpsN_good : ∀ (ops : List SlotOp) (n : JSXNode),
    goodN n = true →
    (∀ o ∈ ops, ∀ x ∈ o.before, goodChild x = true ∧ goodN x = true) →
    goodN (applyOpsN ops n) = true
  | ops, .elem nm a sc cn cs => by
    intro h hops
    simp only [goodN] at h
    simp only [applyOpsN, goodN]
    exact (goodL_iff _).mpr (applyOpsL_good ops 0 cs ((goodL_iff cs).mp h) hops)
  | ops, .text v => by intro h _; exact h
  | ops, .exprFragment t => by intro h _; exact h

theorem applyOpsL_good : ∀ (ops : List SlotOp) (j : Nat) (cs : List JSXNode),
    (∀ c ∈ cs, goodChild c = true ∧ goodN c = true) →
    (∀ o ∈ ops, ∀ x ∈ o.before, goodChild x = true ∧ goodN x = true) →
    ∀ c ∈ applyOpsL ops j cs, goodChild c = true ∧ goodN c = true
  | ops, j, [] => by intro _ _ c hc; simp [applyOpsL] at hc
  | ops, j, c :: rest => by
    intro h hops x hx
    simp only [applyOpsL, List.mem_append] at hx
    set so : List SlotOp := List.filterMap (fun (o : SlotOp) =>
      (match o.path with
      | i :: p =>
        if i = j ∧ p ≠ [] then
          some { path := p, before := o.before, action := o.action }
        else none
      | [] => none : Option SlotOp)) ops with hso
    have hsub : ∀ o ∈ so, ∀ x ∈ o.before, goodChild x = true ∧ goodN x = true := by
      intro o ho y hy
      rw [hso] at ho
      rcases List.mem_filterMap.mp ho with ⟨o', ho', he⟩
      split at he
      · split at he
        · injection he with he'
          rw [← he'] at hy
          exact hops o' ho' y hy
        · exact Option.noConfusion he
      · exact Option.noConfusion he
    have hc' : goodChild (applyOpsN so c) = true ∧ goodN (applyOpsN so c) = true :=
      ⟨by rw [goodChild_applyOpsN]; exact (h c (List.mem_cons_self c rest)).1,
       applyOpsN_good so c (h c (List.mem_cons_self c rest)).2 hsub⟩
    rcases hx with hx | hx
    · rcases hfind : List.find? (fun o => o.path = [j]) ops with _ | o
      · rw [hfind] at hx
        simp only [List.mem_singleton] at hx
        exact hx ▸ hc'
      · rw [hfind] at hx
        simp only [List.mem_append] at hx
        rcases hx with hx | hx
        · exact hops o (List.mem_of_find?_eq_some hfind) x hx
        · rcases ha : o.action with _ | _ | _ <;> rw [ha] at hx
          · simp only [List.mem_singleton] at hx
            exact hx ▸ hc'
          · exact goodN_children hc'.2 x hx
          · simp at hx
    · exact applyOpsL_good ops (j + 1) rest
        (fun c' hc'' => h c' (List.mem_cons_of_mem c hc'')) hops x hx

end

theorem setAttrs_goodN (n : JSXNode) (a : List JSXAttr) :
    goodN (setAttrs n a) = goodN n := by
  cases n <;> rfl

theorem setAttrs_goodChild (n : JSXNode) (a : List JSXAttr) :
    goodChild (setAttrs n a) = goodChild n := by
  cases n <;> rfl

theorem goodL_append (a b : List JSXNode) :
    goodL (a ++ b) = (goodL a && goodL b) := by
  induction a with
  | nil => simp [goodL]
  | cons c rest ih => simp [goodL, ih, Bool.and_assoc]

theorem addDefaultSlot_goodN {n : JSXNode} (h : goodN n = true) :
    goodN (addDefaultSlot n).1 = true := by
  cases n with
  | elem nm a sc cn cs =>
    simp only [addDefaultSlot, goodN, goodL_append, Bool.and_eq_true]
    exact ⟨h, by decide⟩
  | text v => exact h
  | exprFragment t => exact h

theorem addDefaultSlot_goodChild (n : JSXNode) :
    goodChild (addDefaultSlot n).1 = goodChild n := by
  cases n <;> rfl

theorem collectSlots_good {n : JSXNode} (st : LoaderState) (ig : Option SlotMap)
    (hc : goodChild n = true) (hn : goodN n = true) :
    goodChild (collectSlots n st ig).2.1 = true ∧
    goodN (collectSlots n st ig).2.1 = true := by
  unfold collectSlots
  rcases h : collectSlotsN ig [] n ([], st) with ⟨m, st1⟩
  rcases h2 : addDefaultSlot n with ⟨n1, p⟩
  simp only [h, h2]
  split
  · constructor
    · rw [show n1 = (addDefaultSlot n).1 from by rw [h2]]
      rw [addDefaultSlot_goodChild]
      exact hc
    · rw [show n1 = (addDefaultSlot n).1 from by rw [h2]]
      exact addDefaultSlot_goodN hn
  · exact ⟨hc, hn⟩

theorem routedChildren_good {src : JSXNode} (hn : goodN src = true) (nm : Str) :
    ∀ c ∈ routedChildren src.children nm, goodChild c = true ∧ goodN c = true := by
  intro c hc
  exact goodN_children hn c (List.mem_of_mem_filter hc)

theorem populateMacro_good {src dst : JSXNode} (st : LoaderState) (rm : Bool)
    (hsrc : goodN src = true) (hdc : goodChild dst = true)
    (hdn : goodN dst = true) :
    goodChild (populateMacro src dst st rm).1 = true ∧
    goodN (populateMacro src dst st rm).1 = true := by
  rcases h : collectSlots (setAttrs dst (mergeAttrs src.attrs dst.attrs)) st none
    with ⟨slots, dst1, st1⟩
  have hproj : (populateMacro src dst st rm).1 =
      applyOpsN (slots.map (fun nmp =>
        { path := nmp.2, before := routedChildren src.children nmp.1,
          action := if rm then SlotAction.dissolve else SlotAction.keep })) dst1 := by
    unfold populateMacro
    simp only [h]
    split <;> rfl
  have hd1 : goodChild dst1 = true ∧ goodN dst1 = true := by
    have := @collectSlots_good (setAttrs dst (mergeAttrs src.attrs dst.attrs))
      st none (by rw [setAttrs_goodChild]; exact hdc)
      (by rw [setAttrs_goodN]; exact hdn)
    rwa [h] at this
  have hops : ∀ o ∈ slots.map (fun nmp =>
      ({ path := nmp.2, before := routedChildren src.children nmp.1,
         action := if rm then SlotAction.dissolve else SlotAction.keep } : SlotOp)),
      ∀ x ∈ o.before, goodChild x = true ∧ goodN x = true := by
    intro o ho x hx
    rcases List.mem_map.mp ho with ⟨nmp, _, rfl⟩
    exact routedChildren_good hsrc nmp.1 x hx
  rw [hproj]
  exact ⟨by rw [goodChild_applyOpsN]; exact hd1.1,
    applyOpsN_good _ dst1 hd1.2 hops⟩

theorem lookupMacro_good {st : LoaderState}
    {P : MacroDefinition → Prop} (hreg : ∀ p ∈ st.macros, P p.2)
    {nm : Str} {md : MacroDefinition} (h : lookupMacro st nm = some md) :
    P md := by
  unfold lookupMacro at h
  rcases hf : st.macros.find? (fun p => p.1 = nm) with _ | p
  · rw [hf] at h; exact Option.noConfusion h
  · rw [hf] at h
    injection h with h'
    rw [← h']
    exact hreg p (List.mem_of_find?_eq_some hf)

theorem expandMacro_good {use : JSXNode} {md : MacroDefinition}
    (st : LoaderState) (rm : Bool) (nesting : Nat)
    (huc : goodChild use = true) (hun : goodN use = true)
    (hmc : goodChild md.node = true) (hmn : goodN md.node = true) :
    goodChild (expandMacro use md st rm nesting).1 = true ∧
    goodN (expandMacro use md st rm nesting).1 = true := by
  unfold expandMacro
  split
  · exact ⟨huc, hun⟩
  · rcases h : populateMacro use md.node st rm with ⟨ret, oldSlots, st1⟩
    have hret : goodChild ret = true ∧ goodN ret = true := by
      have := populateMacro_good st rm hun hmc hmn
      rwa [h] at this
    simp only [h]
    split
    · exact hret
    · rcases h2 : collectSlots ret st1 (some oldSlots) with ⟨ns, ret1, st2⟩
      have hret1 : goodChild ret1 = true ∧ goodN ret1 = true := by
        have := collectSlots_good st1 (some oldSlots) hret.1 hret.2
        rwa [h2] at this
      simp only [h2]
      have hops : ∀ o ∈ ns.filterMap (fun nmp =>
          (assocFind oldSlots nmp.1).map (fun p =>
            ({ path := p, before := [], action := SlotAction.remove } : SlotOp))),
          ∀ x ∈ o.before, goodChild x = true ∧ goodN x = true := by
        intro o ho x hx
        rcases List.mem_filterMap.mp ho with ⟨nmp, _, he⟩
        rcases ha : assocFind oldSlots nmp.1 with _ | p
        · rw [ha] at he; exact Option.noConfusion he
        · rw [ha] at he
          injection he with he'
          rw [← he'] at hx
          simp at hx
      exact ⟨by rw [goodChild_applyOpsN]; exact hret1.1,
        applyOpsN_good _ ret1 hret1.2 hops⟩

/- Collected macro use-sites have non-empty paths (they have an element
parent) and good subtrees. -/
mutual

theorem macroUsesN_good : ∀ (reg : List (Str × MacroDefinition)) (n : JSXNode),
    goodN n = true → ∀ pu ∈ macroUsesN reg n,
      pu.1 ≠ [] ∧ goodChild pu.2 = true ∧ goodN pu.2 = true
  | reg, .elem nm a sc cn cs => by
    intro h pu hpu
    simp only [goodN] at h
    exact macroUsesL_good reg 0 cs ((goodL_iff cs).mp h) pu hpu
  | reg, .text v => by intro _ pu hpu; simp [macroUsesN] at hpu
  | reg, .exprFragment t => by intro _ pu hpu; simp [macroUsesN] at hpu

theorem macroUsesL_good : ∀ (reg : List (Str × MacroDefinition)) (j : Nat)
    (cs : List JSXNode),
    (∀ c ∈ cs, goodChild c = true ∧ goodN c = true) →
    ∀ pu ∈ macroUsesL reg j cs,
      pu.1 ≠ [] ∧ goodChild pu.2 = true ∧ goodN pu.2 = true
  | reg, j, [] => by intro _ pu hpu; simp [macroUsesL] at hpu
  | reg, j, c :: rest => by
    intro h pu hpu
    simp only [macroUsesL, List.mem_append] at hpu
    rcases hpu with (hpu | hpu) | hpu
    · rcases List.mem_map.mp hpu with ⟨pu', hpu', rfl⟩
      have := macroUsesN_good reg c (h c (List.mem_cons_self c rest)).2 pu' hpu'
      exact ⟨by simp, this.2⟩
    · have hc := h c (List.mem_cons_self c rest)
      rcases c with ⟨nm, a, sc, cn, cs'⟩ | v | t
      · simp only [] at hpu
        by_cases hf : (assocFind reg nm).isSome
        · rw [if_pos hf] at hpu
          simp only [List.mem_singleton] at hpu
          subst hpu
          exact ⟨by simp, hc⟩
        · rw [if_neg hf] at hpu
          simp at hpu
      · simp at hpu
      · simp at hpu
    · exact macroUsesL_good reg (j + 1) rest
        (fun c' hc' => h c' (List.mem_cons_of_mem c hc')) pu hpu

end

/- Fetching a strict subtree of a good tree yields a good child with a good
subtree; splicing a good child back preserves goodness and the root tag. -/
mutual

theorem getAt_good : ∀ (t : JSXNode) (p : TreePath) (u : JSXNode),
    goodChild t = true → goodN t = true → getAt t p = some u →
    goodChild u = true ∧ goodN u = true
  | t, [], u => by
    intro hc hn h
    simp only [getAt, Option.some_inj] at h
    exact h ▸ ⟨hc, hn⟩
  | .elem nm a sc cn cs, i :: p, u => by
    intro _ hn h
    simp only [getAt] at h
    simp only [goodN] at hn
    exact getAtL_good cs i p u ((goodL_iff cs).mp hn) h
  | .text v, i :: p, u => by intro _ _ h; simp [getAt] at h
  | .exprFragment tk, i :: p, u => by intro _ _ h; simp [getAt] at h

theorem getAtL_good : ∀ (cs : List JSXNode) (i : Nat) (p : TreePath)
    (u : JSXNode),
    (∀ c ∈ cs, goodChild c = true ∧ goodN c = true) →
    getAtL cs i p = some u → goodChild u = true ∧ goodN u = true
  | [], i, p, u => by intro _ h; simp [getAtL] at h
  | c :: cs, 0, p, u => by
    intro h hg
    simp only [getAtL] at hg
    exact getAt_good c p u (h c (List.mem_cons_self c cs)).1
      (h c (List.mem_cons_self c cs)).2 hg
  | c :: cs, i + 1, p, u => by
    intro h hg
    simp only [getAtL] at hg
    exact getAtL_good cs i p u (fun c' hc' => h c' (List.mem_cons_of_mem c hc')) hg

end

/-- Fetching at a non-empty path needs only subtree goodness of the root. -/
theorem getAt_good_ne {t : JSXNode} {p : TreePath} {u : JSXNode}
    (hn : goodN t = true) (hp : p ≠ []) (h : getAt t p = some u) :
    goodChild u = true ∧ goodN u = true := by
  rcases p with _ | ⟨i, p'⟩
  · exact absurd rfl hp
  · rcases t with ⟨nm, a, sc, cn, cs⟩ | v | tk
    · simp only [getAt] at h
      simp only [goodN] at hn
      exact getAtL_good cs i p' u ((goodL_iff cs).mp hn) h
    · simp [getAt] at h
    · simp [getAt] at h

mutual

theorem replaceAt_good : ∀ (t : JSXNode) (p : TreePath) (res : JSXNode),
    goodChild t = true → goodN t = true →
    goodChild res = true → goodN res = true →
    goodChild (replaceAt t p res) = true ∧ goodN (replaceAt t p res) = true
  | t, [], res => by intro _ _ hc hn; cases t <;> exact ⟨hc, hn⟩
  | .elem nm a sc cn cs, i :: p, res => by
    intro htc htn hc hn
    simp only [replaceAt]
    simp only [goodN] at htn ⊢
    refine ⟨htc, (goodL_iff _).mpr ?_⟩
    exact replaceAtL_good cs i p res ((goodL_iff cs).mp htn) hc hn
  | .text v, i :: p, res => by intro htc htn _ _; exact ⟨htc, htn⟩
  | .exprFragment tk, i :: p, res => by intro htc htn _ _; exact ⟨htc, htn⟩

theorem replaceAtL_good : ∀ (cs : List JSXNode) (i : Nat) (p : TreePath)
    (res : JSXNode),
    (∀ c ∈ cs, goodChild c = true ∧ goodN c = true) →
    goodChild res = true → goodN res = true →
    ∀ c ∈ replaceAtL cs i p res, goodChild c = true ∧ goodN c = true
  | [], i, p, res => by intro h _ _ c hc; simp [replaceAtL] at hc
  | c :: cs, 0, p, res => by
    intro h hc hn x hx
    simp only [replaceAtL, List.mem_cons] at hx
    rcases hx with rfl | hx
    · exact replaceAt_good c p res (h c (List.mem_cons_self c cs)).1
        (h c (List.mem_cons_self c cs)).2 hc hn
    · exact h x (List.mem_cons_of_mem c hx)
  | c :: cs, i + 1, p, res => by
    intro h hc hn x hx
    simp only [replaceAtL, List.mem_cons] at hx
    rcases hx with rfl | hx
    · exact h x (List.mem_cons_self x cs)
    · exact replaceAtL_good cs i p res
        (fun c' hc' => h c' (List.mem_cons_of_mem c hc')) hc hn x hx

end

/-- Splicing at a non-empty path inside a good tree with a good replacement
preserves subtree goodness. -/
theorem replaceAt_goodN_ne {t : JSXNode} {i : Nat} {p : TreePath}
    {res : JSXNode} (htn : goodN t = true) (hc : goodChild res = true)
    (hn : goodN res = true) : goodN (replaceAt t (i :: p) res) = true := by
  rcases t with ⟨nm, a, sc, cn, cs⟩ | v | tk
  · simp only [replaceAt, goodN] at htn ⊢
    exact (goodL_iff _).mpr (replaceAtL_good cs i p res ((goodL_iff cs).mp htn) hc hn)
  · exact htn
  · exact htn

/-- Splicing at a non-empty path never changes the root. -/
theorem replaceAt_goodChild_ne (t : JSXNode) (i : Nat) (p : TreePath)
    (res : JSXNode) : goodChild (replaceAt t (i :: p) res) = goodChild t := by
  cases t <;> rfl

/-- Macro expansion preserves tree goodness (and never changes the root),
for every fuel, given a good registry. -/
theorem expandMacros_good (fuel : Nat) :
    ∀ (root : JSXNode) (st : LoaderState) (n : Nat),
      goodN root = true →
      (∀ p ∈ st.macros, goodChild p.2.node = true ∧ goodN p.2.node = true) →
      goodN (expandMacros fuel root st n).1 = true ∧
      goodChild (expandMacros fuel root st n).1 = goodChild root := by
  induction fuel with
  | zero => intro root st n h _; exact ⟨h, rfl⟩
  | succ f ih =>
    intro root st n hroot hreg
    unfold expandMacros
    have h1 : ∀ (l : List (TreePath × JSXNode))
        (acc : List (TreePath × JSXNode) × LoaderState),
        (∀ pu ∈ l, pu.1 ≠ [] ∧ goodChild pu.2 = true ∧ goodN pu.2 = true) →
        (∀ pr ∈ acc.1, pr.1 ≠ [] ∧ goodChild pr.2 = true ∧ goodN pr.2 = true) →
        acc.2.macros = st.macros →
        (∀ pr ∈ (l.foldl (fun acc pu =>
            match lookupMacro acc.2 pu.2.tagName with
            | some md =>
              let r := expandMacro pu.2 md acc.2 true n
              (acc.1 ++ [(pu.1, r.1)], r.2)
            | none => acc) acc).1,
          pr.1 ≠ [] ∧ goodChild pr.2 = true ∧ goodN pr.2 = true) ∧
        (l.foldl (fun acc pu =>
            match lookupMacro acc.2 pu.2.tagName with
            | some md =>
              let r := expandMacro pu.2 md acc.2 true n
              (acc.1 ++ [(pu.1, r.1)], r.2)
            | none => acc) acc).2.macros = st.macros := by
      intro l
      induction l with
      | nil => intro acc hl hacc hm; exact ⟨hacc, hm⟩
      | cons a l ihl =>
        intro acc hl hacc hm
        simp only [List.foldl_cons]
        rcases hlk : lookupMacro acc.2 a.2.tagName with _ | md
        · simp only [hlk]
          exact ihl acc (fun pu hpu => hl pu (List.mem_cons_of_mem a hpu)) hacc hm
        · simp only [hlk]
          have ha := hl a (List.mem_cons_self a l)
          have hmd : goodChild md.node = true ∧ goodN md.node = true := by
            refine @lookupMacro_good st
              (fun d => goodChild d.node = true ∧ goodN d.node = true)
              hreg a.2.tagName md ?_
            rw [← hlk]
            unfold lookupMacro
            rw [hm]
          have hres := expandMacro_good acc.2 true n ha.2.1 ha.2.2 hmd.1 hmd.2
          refine ihl _ (fun pu hpu => hl pu (List.mem_cons_of_mem a hpu)) ?_ ?_
          · intro pr hpr
            rcases List.mem_append.mp hpr with hpr | hpr
            · exact hacc pr hpr
            · simp only [List.mem_singleton] at hpr
              subst hpr
              exact ⟨ha.1, hres⟩
          · rw [(expandMacro_errOnly a.2 md acc.2 true n).2, hm]
    have h2 : ∀ (l : List (TreePath × JSXNode)) (acc : JSXNode × LoaderState),
        (∀ pr ∈ l, pr.1 ≠ [] ∧ goodChild pr.2 = true ∧ goodN pr.2 = true) →
        goodN acc.1 = true → goodChild acc.1 = goodChild root →
        acc.2.macros = st.macros →
        goodN (l.foldl (fun acc pr =>
            match getAt (replaceAt acc.1 pr.1 pr.2) pr.1 with
            | some sub =>
              (replaceAt (replaceAt acc.1 pr.1 pr.2) pr.1
                (expandMacros f sub acc.2 (n + 1)).1,
               (expandMacros f sub acc.2 (n + 1)).2)
            | none => (replaceAt acc.1 pr.1 pr.2, acc.2)) acc).1 = true ∧
        goodChild (l.foldl (fun acc pr =>
            match getAt (replaceAt acc.1 pr.1 pr.2) pr.1 with
            | some sub =>
              (replaceAt (replaceAt acc.1 pr.1 pr.2) pr.1
                (expandMacros f sub acc.2 (n + 1)).1,
               (expandMacros f sub acc.2 (n + 1)).2)
            | none => (replaceAt acc.1 pr.1 pr.2, acc.2)) acc).1 = goodChild root := by
      intro l
      induction l with
      | nil => intro acc _ h hc _; exact ⟨h, hc⟩
      | cons a l ihl =>
        intro acc hl hgood hchild hm
        simp only [List.foldl_cons]
        have ha := hl a (List.mem_cons_self a l)
        obtain ⟨i, p', hp⟩ := List.exists_cons_of_ne_nil ha.1
        have htree : goodN (replaceAt acc.1 a.1 a.2) = true := by
          rw [hp]
          exact replaceAt_goodN_ne hgood ha.2.1 ha.2.2
        have htreec : goodChild (replaceAt acc.1 a.1 a.2) = goodChild root := by
          rw [hp, replaceAt_goodChild_ne]
          exact hchild
        rcases hg : getAt (replaceAt acc.1 a.1 a.2) a.1 with _ | sub
        · simp only [hg]
          exact ihl _ (fun pr hpr => hl pr (List.mem_cons_of_mem a hpr))
            htree htreec hm
        · simp only [hg]
          have hsub : goodChild sub = true ∧ goodN sub = true :=
            getAt_good_ne htree ha.1 hg
          have hrec := ih sub acc.2 (n + 1) hsub.2
            (by rw [hm]; exact hreg)
          refine ihl _ (fun pr hpr => hl pr (List.mem_cons_of_mem a hpr)) ?_ ?_ ?_
          · show goodN (replaceAt (replaceAt acc.1 a.1 a.2) a.1
              (expandMacros f sub acc.2 (n + 1)).1) = true
            rw [show replaceAt (replaceAt acc.1 a.1 a.2) a.1
                (expandMacros f sub acc.2 (n + 1)).1 =
              replaceAt (replaceAt acc.1 a.1 a.2) (i :: p')
                (expandMacros f sub acc.2 (n + 1)).1 from by rw [← hp]]
            exact replaceAt_goodN_ne htree (by rw [hrec.2]; exact hsub.1) hrec.1
          · show goodChild (replaceAt (replaceAt acc.1 a.1 a.2) a.1
              (expandMacros f sub acc.2 (n + 1)).1) = goodChild root
            rw [hp, replaceAt_goodChild_ne, ← hp]
            exact htreec
          · rw [(expandMacros_errOnly f sub acc.2 (n + 1)).2, hm]
    have hstamped := h1 (macroUsesN st.macros root) ([], st)
      (macroUsesN_good st.macros root hroot) (by simp) rfl
    exact h2 _ (root, _) hstamped.1 hroot rfl hstamped.2

/-- A good macro registry: every stored body is a good child with a good
subtree. -/
def RegGood (st : LoaderState) : Prop :=
  ∀ p ∈ st.macros, goodChild p.2.node = true ∧ goodN p.2.node = true

/-- The trim of included content only drops nodes. -/
theorem trimIncluded_mem (l : List JSXNode) : ∀ c ∈ trimIncluded l, c ∈ l := by
  have step : ∀ (m : List JSXNode) (c : JSXNode), c ∈ (match m.getLast? with
      | some (.text v) => if isBlank v = true then m.dropLast else m
      | _ => m) → c ∈ m := by
    intro m c hm
    rcases hl : m.getLast? with _ | n
    · rwa [hl] at hm
    · rw [hl] at hm
      rcases n with ⟨nm, a, sc, cn, cs⟩ | v | t
      · exact hm
      · have hm' : c ∈ (if isBlank v = true then m.dropLast else m) := hm
        split at hm'
        · exact List.mem_of_mem_dropLast hm'
        · exact hm'
      · exact hm
  intro c hc
  unfold trimIncluded at hc
  rcases l with _ | ⟨c0, rest⟩
  · exact step [] c hc
  · rcases c0 with ⟨nm, a, sc, cn, cs⟩ | v | t
    · exact step _ c hc
    · have hc' : c ∈ (match (if isBlank v = true then rest
          else JSXNode.text v :: rest).getLast? with
        | some (.text w) => if isBlank w = true then
            (if isBlank v = true then rest else JSXNode.text v :: rest).dropLast
          else (if isBlank v = true then rest else JSXNode.text v :: rest)
        | _ => (if isBlank v = true then rest else JSXNode.text v :: rest)) := hc
      by_cases hb : isBlank v = true
      · rw [if_pos hb] at hc'
        exact List.mem_cons_of_mem _ (step rest c hc')
      · rw [if_neg hb] at hc'
        exact step _ c hc'
    · exact step _ c hc

/-- The base tag produced by a matching `tag` attribute is never a
directive name: its characters are word-or-dash characters. -/
theorem tagMatch_base_good {tag name : Str} {bopt : Option Str}
    (h : tagMatch tag = some (name, bopt)) :
    isDirectiveName (bopt.getD (str "div")) = false := by
  unfold tagMatch at h
  rcases hsp : splitOnChar ':' tag with _ | ⟨n1, tl⟩
  · rw [hsp] at h
    exact Option.noConfusion h
  · rcases tl with _ | ⟨b1, tl2⟩
    · rw [hsp] at h
      have h' : (if n1 ≠ [] ∧ n1.all wordDashChar then
          some (n1, (none : Option Str)) else none) = some (name, bopt) := h
      split at h'
      · injection h' with h''
        have hb : bopt = none := by cases h''; rfl
        subst hb
        decide
      · exact Option.noConfusion h'
    · rcases tl2 with _ | ⟨x, tl3⟩
      · rw [hsp] at h
        have h' : (if n1 ≠ [] ∧ n1.all wordDashChar ∧ b1 ≠ [] ∧
            b1.all wordDashChar then some (n1, some b1) else none) =
            some (name, bopt) := h
        split at h'
        · rename_i hcond
          injection h' with h''
          have hb : bopt = some b1 := by cases h''; rfl
          subst hb
          simp only [Option.getD]
          rcases b1 with _ | ⟨ch, b'⟩
          · exact absurd rfl hcond.2.2.1
          · have hcc : wordDashChar ch = true := by
              have := hcond.2.2.2
              simp only [List.all_cons, Bool.and_eq_true] at this
              exact this.1
            simp only [isDirectiveName, List.head?]
            have hne : ¬ (ch = TAGS_PREFIX) := by
              intro he
              rw [he] at hcc
              exact absurd hcc (by decide)
            simp [hne]
        · exact Option.noConfusion h'
      · rw [hsp] at h
        exact Option.noConfusion h

/-- Registering a macro from a processed `:define` node keeps the registry
good. -/
theorem collectMacro_reg {node : JSXNode} {st : LoaderState}
    (hreg : RegGood st) (hn : goodN node = true) :
    RegGood (collectMacro node st) := by
  unfold collectMacro
  rcases getJSXAttribute node.attrs (str "tag") with _ | tag
  · exact hreg
  · simp only []
    split
    · exact hreg
    · rcases hm : tagMatch tag with _ | nb
      · exact hreg
      · simp only []
        rcases hnode : node with ⟨nm, attrs, sc, cn, cs⟩ | v | t
        · simp only []
          have hbase : isDirectiveName (nb.2.getD (str "div")) = false := by
            rcases nb with ⟨name, bopt⟩
            exact tagMatch_base_good hm
          have hnode' :
              goodChild (JSXNode.elem (nb.2.getD (str "div"))
                (removeJSXAttribute attrs (str "tag")) false
                (some (nb.2.getD (str "div"))) cs) = true ∧
              goodN (JSXNode.elem (nb.2.getD (str "div"))
                (removeJSXAttribute attrs (str "tag")) false
                (some (nb.2.getD (str "div"))) cs) = true := by
            constructor
            · simp [goodChild, hbase]
            · rw [hnode] at hn
              exact hn
          split
          · rename_i fd hfd
            have hfdg : goodChild fd.node = true ∧ goodN fd.node = true := by
              have hlk : lookupMacro st (nb.2.getD (str "div")) = some fd := by
                rw [← hfd]
                split
                · rfl
                · rename_i hfalse
                  exact absurd hfd (by rw [if_neg hfalse]; exact Option.noConfusion)
              exact @lookupMacro_good st
                (fun d => goodChild d.node = true ∧ goodN d.node = true)
                hreg (nb.2.getD (str "div")) fd hlk
            have hexp := expandMacro_good st false 0 hnode'.1 hnode'.2 hfdg.1 hfdg.2
            intro p hp
            rcases List.mem_cons.mp hp with rfl | hp
            · exact hexp
            · have := (expandMacro_errOnly (JSXNode.elem (nb.2.getD (str "div"))
                (removeJSXAttribute attrs (str "tag")) false
                (some (nb.2.getD (str "div"))) cs) fd st false 0).2
              rw [this] at hp
              exact hreg p hp
          · intro p hp
            rcases List.mem_cons.mp hp with rfl | hp
            · exact hnode'
            · exact hreg p hp
        · exact hreg
        · exact hreg

/-- The postcondition on the recursive re-entry used by the goodness
induction: it keeps the registry good and returns good programs. -/
def PcGood (pc : ParseFn) : Prop :=
  ∀ fn cd st n o, RegGood st →
    RegGood (pc fn cd st n o).2 ∧
    (∀ prog, (pc fn cd st n o).1 = some prog → ∀ x ∈ prog, goodN x = true)

theorem processInclude_good (pc : ParseFn) (Hpc : PcGood pc) (dname : Str)
    (node : JSXNode) (pa : List JSXAttr) (cd : Str) (st : LoaderState)
    (n : Nat) (hreg : RegGood st) :
    RegGood (processInclude pc dname node pa cd st n).1 ∧
    ∀ c ∈ (processInclude pc dname node pa cd st n).2.2,
      goodChild c = true ∧ goodN c = true := by
  unfold processInclude
  rcases getJSXAttribute node.attrs (str "src") with _ | s
  · exact ⟨hreg, by simp⟩
  · simp only []
    split
    · exact ⟨hreg, by simp⟩
    · have hp := Hpc s cd st (n + 1) (dname = str ":import") hreg
      rcases h : (pc s cd st (n + 1) (dname = str ":import")).1 with _ | prog
      · simp only [h]
        exact ⟨hp.1, by simp⟩
      · rcases prog with _ | ⟨rootElem, rest⟩
        · simp only [h]
          exact ⟨hp.1, by simp⟩
        · simp only [h]
          refine ⟨hp.1, ?_⟩
          intro c hc
          have hroot : goodN rootElem = true :=
            hp.2 (rootElem :: rest) h rootElem (List.mem_cons_self _ _)
          exact goodN_children hroot c (trimIncluded_mem _ c hc)

mutual

theorem processProgram_good (pc : ParseFn) (Hpc : PcGood pc) :
    ∀ (prog : Program) (cd : Str) (st : LoaderState) (n : Nat), RegGood st →
      RegGood (processProgram pc prog cd st n).2 ∧
      ∀ x ∈ (processProgram pc prog cd st n).1, goodN x = true
  | [], cd, st, n => by
    intro hreg
    exact ⟨hreg, by simp [processProgram]⟩
  | x :: rest, cd, st, n => by
    intro hreg
    unfold processProgram
    have h1 := processNode_good pc Hpc x cd st n hreg
    have h2 := processProgram_good pc Hpc rest cd (processNode pc x cd st n).2 n h1.1
    refine ⟨h2.1, ?_⟩
    intro y hy
    rcases List.mem_cons.mp hy with rfl | hy
    · exact h1.2
    · exact h2.2 y hy

theorem processNode_good (pc : ParseFn) (Hpc : PcGood pc) :
    ∀ (x : JSXNode) (cd : Str) (st : LoaderState) (n : Nat), RegGood st →
      RegGood (processNode pc x cd st n).2 ∧
      goodN (processNode pc x cd st n).1 = true
  | .elem nm a sc cn cs, cd, st, n => by
    intro hreg
    unfold processNode
    have h := processChildren_good pc Hpc cs a cd st n hreg
    exact ⟨h.1, by simp only [goodN]; exact (goodL_iff _).mpr h.2⟩
  | .text v, cd, st, n => by intro hreg; exact ⟨hreg, rfl⟩
  | .exprFragment t, cd, st, n => by intro hreg; exact ⟨hreg, rfl⟩

theorem processChildren_good (pc : ParseFn) (Hpc : PcGood pc) :
    ∀ (cs : List JSXNode) (pa : List JSXAttr) (cd : Str) (st : LoaderState)
      (n : Nat), RegGood st →
      RegGood (processChildren pc cs pa cd st n).1 ∧
      ∀ c ∈ (processChildren pc cs pa cd st n).2.2,
        goodChild c = true ∧ goodN c = true
  | [], pa, cd, st, n => by
    intro hreg
    exact ⟨hreg, by simp [processChildren]⟩
  | c :: rest, pa, cd, st, n => by
    intro hreg
    unfold processChildren
    have hc := processNode_good pc Hpc c cd st n hreg
    have hstep : ∀ (step : LoaderState × List JSXAttr × List JSXNode),
        RegGood step.1 →
        (∀ x ∈ step.2.2, goodChild x = true ∧ goodN x = true) →
        RegGood ((processChildren pc rest step.2.1 cd step.1 n).1) ∧
        ∀ x ∈ step.2.2 ++ (processChildren pc rest step.2.1 cd step.1 n).2.2,
          goodChild x = true ∧ goodN x = true := by
      intro step hs1 hs2
      have hr := processChildren_good pc Hpc rest step.2.1 cd step.1 n hs1
      refine ⟨hr.1, ?_⟩
      intro x hx
      rcases List.mem_append.mp hx with hx | hx
      · exact hs2 x hx
      · exact hr.2 x hx
    rcases he : (processNode pc c cd st n).1 with ⟨nm, a', sc, cn, cs'⟩ | v | t
    · simp only []
      rw [he]
      simp only []
      by_cases hdir : isDirectiveName nm = true
      · rw [if_pos hdir]
        by_cases hinc : (nm = str ":include" ∨ nm = str ":import")
        · rw [if_pos hinc]
          have hi := processInclude_good pc Hpc nm (JSXNode.elem nm a' sc cn cs')
            pa cd (processNode pc c cd st n).2 n hc.1
          exact hstep _ hi.1 hi.2
        · rw [if_neg hinc]
          by_cases hdef : nm = str ":define"
          · rw [if_pos hdef]
            refine hstep (collectMacro (JSXNode.elem nm a' sc cn cs')
              (processNode pc c cd st n).2, pa, []) ?_ (by simp)
            exact collectMacro_reg hc.1 (by rw [← he]; exact hc.2)
          · rw [if_neg hdef]
            by_cases hslot : nm = str ":slot"
            · rw [if_pos hslot]
              refine hstep ((processNode pc c cd st n).2, pa,
                [JSXNode.elem nm a' sc cn cs']) hc.1 ?_
              intro x hx
              simp only [List.mem_singleton] at hx
              subst hx
              refine ⟨by simp [goodChild, hslot], ?_⟩
              rw [← he]
              exact hc.2
            · rw [if_neg hslot]
              exact hstep (addError (processNode pc c cd st n).2 .warning
                (str "unknown directive " ++ nm), pa, []) hc.1 (by simp)
      · rw [if_neg hdir]
        refine hstep ((processNode pc c cd st n).2, pa,
          [JSXNode.elem nm a' sc cn cs']) hc.1 ?_
        intro x hx
        simp only [List.mem_singleton] at hx
        subst hx
        refine ⟨?_, by rw [← he]; exact hc.2⟩
        simp only [goodChild]
        rw [show isDirectiveName nm = false from by
          rcases h : isDirectiveName nm with _ | _
          · rfl
          · exact absurd h hdir]
        rfl
    · simp only []
      rw [he]
      simp only []
      refine hstep ((processNode pc c cd st n).2, pa, [JSXNode.text v]) hc.1 ?_
      intro x hx
      simp only [List.mem_singleton] at hx
      subst hx
      exact ⟨rfl, rfl⟩
    · simp only []
      rw [he]
      simp only []
      refine hstep ((processNode pc c cd st n).2, pa, [JSXNode.exprFragment t])
        hc.1 ?_
      intro x hx
      simp only [List.mem_singleton] at hx
      subst hx
      exact ⟨rfl, rfl⟩

end

/-- `parseRead` keeps the registry good, and every top-level item of a tree
it returns is good. -/
theorem parseRead_good (pc : ParseFn) (Hpc : PcGood pc) (relPath pname : Str)
    (env : LoaderEnv) (st : LoaderState) (n : Nat) (hreg : RegGood st) :
    RegGood (parseRead pc relPath pname env st n).2 ∧
    ∀ prog, (parseRead pc relPath pname env st n).1 = some prog →
      ∀ x ∈ prog, goodN x = true := by
  unfold parseRead
  rcases env.readFile pname with _ | text
  · exact ⟨hreg, fun prog h => Option.noConfusion h⟩
  · simp only []
    rcases env.parseFile text relPath with e | program
    · exact ⟨hreg, fun prog h => Option.noConfusion h⟩
    · simp only []
      rcases program with _ | ⟨r0, rest⟩
      · exact ⟨hreg, fun prog h => Option.noConfusion h⟩
      · rcases r0 with ⟨nm, a, sc, cn, cs⟩ | v | t
        · simp only []
          have h := processProgram_good pc Hpc
            (JSXNode.elem nm a sc cn cs :: rest) (pathDirname relPath) st n hreg
          refine ⟨h.1, ?_⟩
          intro prog hp
          injection hp with hp
          subst hp
          exact h.2
        · exact ⟨hreg, fun prog h => Option.noConfusion h⟩
        · exact ⟨hreg, fun prog h => Option.noConfusion h⟩

/-- `parseResolve` keeps the registry good, and every top-level item of a
tree it returns is good. -/
theorem parseResolve_good (pc : ParseFn) (Hpc : PcGood pc) (fname cdx : Str)
    (env : LoaderEnv) (st : LoaderState) (n : Nat) (o : Bool)
    (hreg : RegGood st) :
    RegGood (parseResolve pc fname cdx env st n o).2 ∧
    ∀ prog, (parseResolve pc fname cdx env st n o).1 = some prog →
      ∀ x ∈ prog, goodN x = true := by
  unfold parseResolve
  simp only []
  by_cases hpre : ¬ (env.root.isPrefixOf
      (pathNormalize (pathJoin [env.root, cdx, fname])) = true)
  · rw [if_pos hpre]
    exact ⟨hreg, fun prog h => Option.noConfusion h⟩
  · rw [if_neg hpre]
    by_cases hmem : (pathNormalize (pathJoin [env.root, cdx, fname])).drop
        env.root.length ∈ st.files
    · rw [if_pos hmem]
      cases o with
      | false =>
        rw [if_neg (by simp)]
        exact parseRead_good pc Hpc _ _ env st n hreg
      | true =>
        rw [if_pos rfl]
        exact ⟨hreg, fun prog h => Option.noConfusion h⟩
    · rw [if_neg hmem]
      exact parseRead_good pc Hpc _ _ env _ n hreg

/-- `parse` keeps the registry good at every fuel, and every top-level item
of a tree it returns is good. -/
theorem parse_good (env : LoaderEnv) :
    ∀ fuel, PcGood (fun fn cd st n o => parse fuel fn cd env st n o) := by
  intro fuel
  induction fuel with
  | zero =>
    intro fn cd st n o hreg
    show RegGood (parse 0 fn cd env st n o).2 ∧
      ∀ prog, (parse 0 fn cd env st n o).1 = some prog →
        ∀ x ∈ prog, goodN x = true
    unfold parse
    by_cases hn : n ≥ MAX_NESTING
    · rw [if_pos hn]
      exact ⟨hreg, fun prog h => Option.noConfusion h⟩
    · rw [if_neg hn]
      exact ⟨hreg, fun prog h => Option.noConfusion h⟩
  | succ f ih =>
    intro fn cd st n o hreg
    show RegGood (parse (f + 1) fn cd env st n o).2 ∧
      ∀ prog, (parse (f + 1) fn cd env st n o).1 = some prog →
        ∀ x ∈ prog, goodN x = true
    unfold parse
    by_cases hn : n ≥ MAX_NESTING
    · rw [if_pos hn]
      exact ⟨hreg, fun prog h => Option.noConfusion h⟩
    · rw [if_neg hn]
      exact parseResolve_good _ ih fn _ env st n o hreg

/-- Macro expansion over the top-level statement list keeps every item
good. -/
theorem expandMacrosProgram_good (fuel : Nat) :
    ∀ (prog : Program) (st : LoaderState), RegGood st →
      (∀ x ∈ prog, goodN x = true) →
      ∀ x ∈ (expandMacrosProgram fuel prog st).1, goodN x = true := by
  intro prog
  induction prog with
  | nil =>
    intro st _ _ x hx
    simp [expandMacrosProgram] at hx
  | cons a l ih =>
    intro st hreg hp
    unfold expandMacrosProgram
    simp only []
    intro x hx
    have ha := expandMacros_good fuel a st 0 (hp a (List.mem_cons_self a l)) hreg
    rcases List.mem_cons.mp hx with rfl | hx
    · exact ha.1
    · refine ih (expandMacros fuel a st 0).2 ?_
        (fun y hy => hp y (List.mem_cons_of_mem a hy)) x hx
      intro p hpm
      rw [(expandMacros_errOnly fuel a st 0).2] at hpm
      exact hreg p hpm

/-- Every tree returned by `load` is good: below any element of the final
tree, every node is either a non-directive node or a `:slot` element. -/
theorem load_good (fname : Str) (env : LoaderEnv) :
    ∀ prog, (load fname env).ast = some prog → ∀ x ∈ prog, goodN x = true := by
  intro prog h
  unfold load at h
  simp only [] at h
  rcases hp : (parse MAX_NESTING fname (str ".") env initState 0 false).1
    with _ | p
  · rw [hp] at h
    exact absurd h (by simp)
  · rw [hp] at h
    simp only [] at h
    injection h with h
    subst h
    have hinit : RegGood initState := by
      intro q hq
      simp [initState] at hq
    have hparse := parse_good env MAX_NESTING fname (str ".") initState 0
      false hinit
    exact expandMacrosProgram_good MACRO_FUEL p _ hparse.1 (hparse.2 p hp)

/-- The stray-slot scenario: the entry page holds a `:slot` element directly
under `<html>`, outside any macro body. -/
def envStraySlot : LoaderEnv := mkEnv "/www"
  [("/index.html",
    [mkElem "html" [] [mkElem ":slot" [("name", "a")] [mkText "x"]]])]

/-- C8: the claim is false as stated: a `:slot` element sitting in the page
outside every macro body survives directive processing (which retains
`:slot`) and is never consumed by macro expansion (which dissolves only the
slots of stamped macro bodies), so the final tree of the stray-slot load
still contains an element whose tag name begins with `:`. -/
theorem claim_C8_counterexample :
    ∃ prog x c, (load (str "/index.html") envStraySlot).ast = some prog ∧
      x ∈ prog ∧ c ∈ x.children ∧ c.isElem = true ∧
      c.tagName.head? = some TAGS_PREFIX :=
  ⟨[mkElem "html" [] [mkElem ":slot" [("name", "a")] [mkText "x"]]],
   mkElem "html" [] [mkElem ":slot" [("name", "a")] [mkText "x"]],
   mkElem ":slot" [("name", "a")] [mkText "x"],
   rfl, List.mem_cons_self _ _, List.mem_cons_self _ _, rfl, rfl⟩

/-- C8 (amended): in the final tree returned by `load`, every node below an
element is either a non-directive node or a `:slot` element — directive
processing removes every other directive element and macro expansion
preserves this shape — but unconsumed `:slot` elements may remain, and
top-level statements are unconstrained. -/
theorem claim_C8 (fname : Str) (env : LoaderEnv) (prog : Program)
    (h : (load fname env).ast = some prog) :
    ∀ x ∈ prog, goodN x = true :=
  load_good fname env prog h

/-- C8 witness: the stray-slot load at concrete input. -/
theorem claim_C8_witness :
    goodN (mkElem "html" [] [mkElem ":slot" [("name", "a")] [mkText "x"]]) =
      true :=
  claim_C8 (str "/index.html") envStraySlot
    [mkElem "html" [] [mkElem ":slot" [("name", "a")] [mkText "x"]]] rfl
    (mkElem "html" [] [mkElem ":slot" [("name", "a")] [mkText "x"]])
    (List.mem_cons_self _ _)


end PageLogic
